import Mathlib

/-!
# explain_floating_point_representation.c

A shallow embedding of `lectures/Floating Point/explain_floating_point_representation.c`.

* `uint32_t` values are natural numbers below `2 ^ 32`; every operation that can
  leave that range is reduced modulo `2 ^ 32` explicitly.
* `int` values are integers.
* A C operation with undefined behaviour (a shift whose count is negative or not
  smaller than the width of the operand, a read past the end of a string) has no
  result: the functions return `Option`, and `none` stands for "undefined".
* `printf`/`putchar` output is collected as a list of `OutItem`s, in program order.
* The `double` values of `print_float_details` are modelled by exact rationals.
  Every `double` operation of the function is exact on the operands it can
  receive (significands of at most 24 bits, exponents between -149 and 127),
  so the rational is the value of the `double`.
-/

namespace FloatExplain

/-! ## Constants (`#define`s of the source) -/

def N_BITS : Nat := 32
def SIGN_BIT : Int := 31
def EXPONENT_HIGH_BIT : Int := 30
def EXPONENT_LOW_BIT : Int := 23
def FRACTION_HIGH_BIT : Int := 22
def FRACTION_LOW_BIT : Int := 0

def EXPONENT_OFFSET : Nat := 127
def EXPONENT_INF_NAN : Nat := 255

/-! ## Machine arithmetic -/

/-- The operator `x << n` for a `uint32_t` operand `x` and an `int` count `n`:
undefined when the count is negative or at least 32, otherwise the shifted
value reduced modulo `2 ^ 32`. -/
def shl32 (x : Nat) (n : Int) : Option Nat :=
  if 0 ≤ n ∧ n < 32 then some ((x <<< n.toNat) % 2 ^ 32) else none

/-- The operator `x >> n` for a `uint32_t` operand `x` and an `int` count `n`:
undefined when the count is negative or at least 32. -/
def shr32 (x : Nat) (n : Int) : Option Nat :=
  if 0 ≤ n ∧ n < 32 then some (x >>> n.toNat) else none

/-- The operator `a - b` on `uint32_t`: wraps modulo `2 ^ 32`. -/
def sub32 (a b : Nat) : Nat := (a + (2 ^ 32 - b % 2 ^ 32)) % 2 ^ 32

/-- Conversion of a `uint32_t` to `int` (two's complement). -/
def toInt32 (u : Nat) : Int :=
  if u % 2 ^ 32 < 2 ^ 31 then ((u % 2 ^ 32 : Nat) : Int) else ((u % 2 ^ 32 : Nat) : Int) - 2 ^ 32

/-! ## `extract_bit_range` -/

/-- The source:
```
uint32_t mask = (((uint32_t)1) << (high - low + 1)) - 1;
return (value >> low) & mask;
```
The count `high - low + 1` is an `int`; whenever the `int` arithmetic would
overflow, the mathematical count lies outside `0..31`, so the result is
undefined in the model as it is in C. -/
def extract_bit_range (value : Nat) (high low : Int) : Option Nat := do
  let one_shifted ← shl32 1 (high - low + 1)
  let mask := sub32 one_shifted 1
  let shifted ← shr32 value low
  pure (shifted &&& mask)

/-! ## Output -/

/-- One unit of output: a character, or the `%g` rendering of a `double`
(kept abstract, with the exact value of the `double`). -/
inductive OutItem where
  | ch (c : Char)
  | g (x : ℚ)
  deriving DecidableEq

/-- Literal text of a format string. -/
def text (s : String) : List OutItem := s.toList.map OutItem.ch

/-- The conversion `%d` of an `int`. -/
def fmt_d (i : Int) : List OutItem :=
  (if i < 0 then '-' :: Nat.toDigits 10 i.natAbs else Nat.toDigits 10 i.natAbs).map OutItem.ch

/-- The conversion `%c`. -/
def fmt_c (c : Char) : List OutItem := [OutItem.ch c]

/-- The conversion `%g` of a `double`. -/
def fmt_g (x : ℚ) : List OutItem := [OutItem.g x]

/-! ## `print_bit_range` -/

/-- The body of the loop `for (int i = high; i >= low; i--)`, run `n` more
times starting at `i`:
```
int bit = extract_bit_range(value, i, i);
printf("%d", bit);
```
-/
def print_bit_range_loop (value : Nat) : Nat → Int → Option (List OutItem)
  | 0, _ => some []
  | n + 1, i => do
    let bit ← extract_bit_range value i i
    let rest ← print_bit_range_loop value n (i - 1)
    pure (fmt_d (toInt32 bit) ++ rest)

/-- The loop runs for `i = high, high - 1, ..., low`, that is `high - low + 1`
times (not at all when `high < low`). -/
def print_bit_range (value : Nat) (high low : Int) : Option (List OutItem) :=
  print_bit_range_loop value (high - low + 1).toNat high

/-! ## `print_float_details` -/

/-- Which of the four paths through `print_float_details` was taken. -/
inductive FloatClass where
  | Infinity
  | NaN
  | Denormal
  | Normal
  deriving DecidableEq, Repr

/-- The text printed by `print_float_details` together with the values of its
local variables when it returns. `fraction` is the `double` of that name after
`fraction *= sign_value`, `power` is `exp2(exponent)` and `number` is
`fraction * exp2(exponent)`; the three are absent on the path that returns
before they are computed. -/
structure Details where
  out : List OutItem
  sign_bit : Nat
  fraction_bits : Nat
  exponent_bits : Nat
  sign_char : Char
  sign_value : Int
  exponent : Int
  implicit_bit : Int
  cls : FloatClass
  fraction : Option ℚ
  power : Option ℚ
  number : Option ℚ

/-- The function `exp2` of `math.h` at an `int` argument. -/
def exp2 (n : Int) : ℚ := (2 : ℚ) ^ n

def print_float_details (bits : Nat) : Option Details := do
  let sign_bit ← extract_bit_range bits SIGN_BIT SIGN_BIT
  let fraction_bits ← extract_bit_range bits FRACTION_HIGH_BIT FRACTION_LOW_BIT
  let exponent_bits ← extract_bit_range bits EXPONENT_HIGH_BIT EXPONENT_LOW_BIT
  let sign_char : Char := if sign_bit = 1 then '-' else '+'
  let sign_value : Int := if sign_bit = 1 then -1 else 1
  let exponent : Int := toInt32 (sub32 exponent_bits EXPONENT_OFFSET)
  let raw ← print_bit_range bits EXPONENT_HIGH_BIT EXPONENT_LOW_BIT
  let out :=
    text "sign bit = " ++ fmt_d (toInt32 sign_bit) ++ text "\n"
    ++ text "sign = " ++ fmt_c sign_char ++ text "\n\n"
    ++ text "raw exponent    = " ++ raw ++ text " binary\n"
    ++ text "                = " ++ fmt_d (toInt32 exponent_bits) ++ text " decimal\n"
  let implicit_bit : Int := 1
  if exponent_bits = EXPONENT_INF_NAN then
    if fraction_bits = 0 then
      pure { out := out ++ text "number = " ++ fmt_c sign_char ++ text "inf\n\n",
             sign_bit, fraction_bits, exponent_bits, sign_char, sign_value, exponent,
             implicit_bit, cls := FloatClass.Infinity,
             fraction := none, power := none, number := none }
    else
      pure { out := out ++ text "number = NaN\n\n",
             sign_bit, fraction_bits, exponent_bits, sign_char, sign_value, exponent,
             implicit_bit, cls := FloatClass.NaN,
             fraction := none, power := none, number := none }
  else
    let cls := if exponent_bits = 0 then FloatClass.Denormal else FloatClass.Normal
    let implicit_bit : Int := if exponent_bits = 0 then 0 else implicit_bit
    let exponent : Int := if exponent_bits = 0 then exponent + 1 else exponent
    let fraction_text ← print_bit_range bits FRACTION_HIGH_BIT FRACTION_LOW_BIT
    let fraction_size : Int := FRACTION_HIGH_BIT - FRACTION_LOW_BIT + 1
    let fraction_max_bits ← shl32 1 fraction_size
    let fraction_max : ℚ := (fraction_max_bits : ℚ)
    let fraction : ℚ := (implicit_bit : ℚ) + (fraction_bits : ℚ) / fraction_max
    let fraction : ℚ := fraction * (sign_value : ℚ)
    let out :=
      out
      ++ text "actual exponent = " ++ fmt_d (toInt32 exponent_bits) ++ text " - exponent_bias\n"
      ++ text "                = " ++ fmt_d (toInt32 exponent_bits) ++ text " - "
        ++ fmt_d (EXPONENT_OFFSET : Int) ++ text "\n"
      ++ text "                = " ++ fmt_d exponent ++ text "\n\n"
      ++ text "number = " ++ fmt_c sign_char ++ fmt_d implicit_bit ++ text "."
        ++ fraction_text ++ text " binary * 2**" ++ fmt_d exponent ++ text "\n"
      ++ text "       = " ++ fmt_g fraction ++ text " decimal * 2**" ++ fmt_d exponent ++ text "\n"
      ++ text "       = " ++ fmt_g fraction ++ text " * " ++ fmt_g (exp2 exponent) ++ text "\n"
      ++ text "       = " ++ fmt_g (fraction * exp2 exponent) ++ text "\n\n"
    pure { out, sign_bit, fraction_bits, exponent_bits, sign_char, sign_value, exponent,
           implicit_bit, cls,
           fraction := some fraction, power := some (exp2 exponent),
           number := some (fraction * exp2 exponent) }

/-! ## `print_float_bits` -/

def print_float_bits (bits : Nat) : Option (List OutItem) := do
  let all ← print_bit_range bits (8 * 4 - 1) 0
  let s ← print_bit_range bits SIGN_BIT SIGN_BIT
  let e ← print_bit_range bits EXPONENT_HIGH_BIT EXPONENT_LOW_BIT
  let f ← print_bit_range bits FRACTION_HIGH_BIT FRACTION_LOW_BIT
  pure (all ++ text "\n\n" ++ text "sign | exponent | fraction\n" ++ text "   "
    ++ s ++ text " | " ++ e ++ text " | " ++ f ++ text "\n\n")

/-! ## Strings

A C string is modelled by the list of its characters before the terminating
NUL; none of them is NUL. -/

/-- The terminator of a C string. -/
def NUL : Char := Char.ofNat 0

/-- The read `s[i]`: a character of the string, the terminator right after
them, undefined further on. -/
def str_at (s : List Char) (i : Nat) : Option Char := (s ++ [NUL])[i]?

def strlen (s : List Char) : Nat := s.length

/-- Length of the longest prefix of `s` made of characters of `accept`. -/
def strspn (s accept : List Char) : Nat := (s.takeWhile (fun c => accept.contains c)).length

/-! ## `convert_bitstring_to_uint32` -/

/-- The loop `for (int i = 0; i < N_BITS && bit_string[i] != 0; i++)` from the
state `(i, bits)`, with fuel for the number of tests of the loop condition
still allowed:
```
int ascii_char = bit_string[N_BITS - 1 - i];
uint32_t bit = ascii_char != '0';
bits = bits | (bit << i);
```
-/
def convert_bitstring_loop (bit_string : List Char) : Nat → Nat → Nat → Option Nat
  | 0, _, _ => none
  | fuel + 1, i, bits =>
    if i < N_BITS then do
      let c ← str_at bit_string i
      if c ≠ NUL then do
        let ascii_char ← str_at bit_string (N_BITS - 1 - i)
        let bit : Nat := if ascii_char ≠ '0' then 1 else 0
        let shifted ← shl32 bit i
        convert_bitstring_loop bit_string fuel (i + 1) (bits ||| shifted)
      else
        pure bits
    else
      pure bits

/-- The loop condition is tested at most `N_BITS + 1` times. -/
def convert_bitstring_to_uint32 (bit_string : List Char) : Option Nat :=
  convert_bitstring_loop bit_string (N_BITS + 1) 0 0

/-! ## `display_float` -/

/-- What `display_float` did: which branch of its `if` ran, the bits it handed
to `print_float_details`, and the text printed. -/
structure Display where
  bit_pattern : Bool
  bits : Nat
  out : List OutItem

/-- The function `display_float`. The parameter `float_bits` stands for
`get_float_bits(strtof(argument, NULL))`, the bits of the `float` that the C
library parses from the argument. -/
def display_float (float_bits : List Char → Nat) (argument : List Char) : Option Display :=
  if strlen argument > N_BITS - 4 ∧ strspn argument "01".toList = N_BITS then do
    let bits ← convert_bitstring_to_uint32 argument
    let d ← print_float_details bits
    pure { bit_pattern := true, bits, out := d.out }
  else do
    let bits := float_bits argument
    let banner := text "\n" ++ argument.map OutItem.ch
      ++ text " is represented as a float (IEEE-754 single-precision) by these bits:\n\n"
    let pattern ← print_float_bits bits
    let d ← print_float_details bits
    pure { bit_pattern := false, bits, out := banner ++ pattern ++ d.out }

/-! ## The reference value of a binary32 pattern -/

/-- The value that IEEE-754 binary32 gives to a pattern with sign bit `s`, raw
exponent `e` and fraction `f`, for `e` other than 255:
`(-1)^s * (1 + f/2^23) * 2^(e-127)` when `1 ≤ e ≤ 254`, and
`(-1)^s * (f/2^23) * 2^(-126)` when `e = 0`. -/
def ieee754_binary32_value (bits : Nat) : ℚ :=
  let s : Nat := bits / 2 ^ 31 % 2
  let e : Nat := bits / 2 ^ 23 % 2 ^ 8
  let f : Nat := bits % 2 ^ 23
  if e = 0 then
    (-1 : ℚ) ^ s * ((f : ℚ) / 2 ^ 23) * (2 : ℚ) ^ (-126 : Int)
  else
    (-1 : ℚ) ^ s * (1 + (f : ℚ) / 2 ^ 23) * (2 : ℚ) ^ ((e : Int) - 127)

/-! ## `convert_bitstring_to_uint32`, with the reads of its loop recorded -/

/-- The loop of `convert_bitstring_to_uint32` once more, returning next to the
bits the indices `N_BITS - 1 - i` at which the body read `bit_string`, one for
each iteration, in the order of the iterations. -/
def convert_bitstring_loop_reads (bit_string : List Char) :
    Nat → Nat → Nat → List Nat → Option (Nat × List Nat)
  | 0, _, _, _ => none
  | fuel + 1, i, bits, reads =>
    if i < N_BITS then do
      let c ← str_at bit_string i
      if c ≠ NUL then do
        let ascii_char ← str_at bit_string (N_BITS - 1 - i)
        let bit : Nat := if ascii_char ≠ '0' then 1 else 0
        let shifted ← shl32 bit i
        convert_bitstring_loop_reads bit_string fuel (i + 1) (bits ||| shifted)
          (reads ++ [N_BITS - 1 - i])
      else
        pure (bits, reads)
    else
      pure (bits, reads)

def convert_bitstring_to_uint32_reads (bit_string : List Char) : Option (Nat × List Nat) :=
  convert_bitstring_loop_reads bit_string (N_BITS + 1) 0 0 []

end FloatExplain

/-!
# print_int_in_hex.c

A shallow embedding of `lectures/Bitwise Operations/print_int_in_hex.c`, with
the same conventions.
-/

namespace PrintHex

/-- The body of the loop
`for (int which_digit = n_hex_digits - 1; which_digit >= 0; which_digit--)`,
run `count` more times starting at `which_digit`:
```
int bit_shift = 4 * which_digit;
uint32_t shifted_value = n >> bit_shift;
int hex_digit = shifted_value & 0xF;
int hex_digit_ascii = "0123456789ABCDEF"[hex_digit];
putchar(hex_digit_ascii);
```
-/
def print_hex_loop (n : Nat) : Nat → Int → Option (List FloatExplain.OutItem)
  | 0, _ => some []
  | count + 1, which_digit => do
    let bit_shift : Int := 4 * which_digit
    let shifted_value ← FloatExplain.shr32 n bit_shift
    let hex_digit : Int := FloatExplain.toInt32 (shifted_value &&& 0xF)
    let hex_digit_ascii ←
      if 0 ≤ hex_digit then FloatExplain.str_at "0123456789ABCDEF".toList hex_digit.toNat
      else none
    let rest ← print_hex_loop n count (which_digit - 1)
    pure (FloatExplain.OutItem.ch hex_digit_ascii :: rest)

/-- The loop runs for `which_digit = n_hex_digits - 1, ..., 0`, where
`n_hex_digits` is `2 * (sizeof n)`, that is 8. -/
def print_hex (n : Nat) : Option (List FloatExplain.OutItem) :=
  let n_hex_digits : Int := 2 * 4
  print_hex_loop n n_hex_digits.toNat (n_hex_digits - 1)

/-- The value of one hexadecimal digit: its position in the digit string. -/
def hex_digit_value (c : Char) : Nat := "0123456789ABCDEF".toList.indexOf c

/-- The number that a string of hexadecimal digits denotes, most significant
digit first. -/
def hex_numeral_value (digits : List Char) : Nat :=
  digits.foldl (fun acc c => 16 * acc + hex_digit_value c) 0

end PrintHex

namespace FloatExplain

/-! ## Lemmas about the machine arithmetic and `extract_bit_range` -/

theorem shl32_one (k : Nat) (hk : k < 32) : shl32 1 (k : Int) = some (2 ^ k) := by
  have h : (2 : Nat) ^ k < 2 ^ 32 := Nat.pow_lt_pow_right (by norm_num) hk
  simp only [shl32]
  rw [if_pos ⟨by omega, by omega⟩]
  simp only [Int.toNat_ofNat, Nat.shiftLeft_eq, one_mul, Nat.mod_eq_of_lt h]

theorem shl32_of_lt (x k : Nat) (hk : k < 32) (hx : x * 2 ^ k < 2 ^ 32) :
    shl32 x (k : Int) = some (x <<< k) := by
  simp only [shl32]
  rw [if_pos ⟨by omega, by omega⟩]
  simp only [Int.toNat_ofNat, Nat.shiftLeft_eq, Nat.mod_eq_of_lt hx]

theorem sub32_two_pow_one (k : Nat) (hk : k < 32) : sub32 (2 ^ k) 1 = 2 ^ k - 1 := by
  have h : (2 : Nat) ^ k < 2 ^ 32 := Nat.pow_lt_pow_right (by norm_num) hk
  have h1 : 0 < (2 : Nat) ^ k := Nat.pow_pos (by norm_num)
  simp only [sub32]
  norm_num at h ⊢
  omega

/-- On a range that is narrower than the whole word, `extract_bit_range`
returns the bits `low..high` of the value. -/
theorem extract_bit_range_eq (value : Nat) (high low : Nat) (hle : low ≤ high)
    (hhigh : high ≤ 31) (hw : high - low + 1 < 32) :
    extract_bit_range value (high : Int) (low : Int)
      = some (value / 2 ^ low % 2 ^ (high - low + 1)) := by
  have hcount : ((high : Int) - (low : Int) + 1) = ((high - low + 1 : Nat) : Int) := by omega
  have hlow : (0 : Int) ≤ (low : Int) ∧ (low : Int) < 32 := by omega
  simp only [extract_bit_range, hcount, shl32_one _ hw, sub32_two_pow_one _ hw, shr32,
    if_pos hlow, Option.bind_eq_bind, Option.some_bind, Option.pure_def, Int.toNat_ofNat,
    Nat.and_pow_two_sub_one_eq_mod, Nat.shiftRight_eq_div_pow]

theorem extract_bit_range_sign (bits : Nat) :
    extract_bit_range bits 31 31 = some (bits / 2 ^ 31 % 2) := by
  have h := extract_bit_range_eq bits 31 31 (by norm_num) (by norm_num) (by norm_num)
  simpa using h

theorem extract_bit_range_exponent (bits : Nat) :
    extract_bit_range bits 30 23 = some (bits / 2 ^ 23 % 2 ^ 8) := by
  have h := extract_bit_range_eq bits 30 23 (by norm_num) (by norm_num) (by norm_num)
  simpa using h

theorem extract_bit_range_fraction (bits : Nat) :
    extract_bit_range bits 22 0 = some (bits % 2 ^ 23) := by
  have h := extract_bit_range_eq bits 22 0 (by norm_num) (by norm_num) (by norm_num)
  simpa using h

theorem extract_bit_range_single (value : Nat) (i : Nat) (hi : i ≤ 31) :
    extract_bit_range value (i : Int) (i : Int) = some (value / 2 ^ i % 2) := by
  have h := extract_bit_range_eq value i i (le_refl i) hi (by omega)
  simpa using h

/-- The three fields of a 32-bit word, put back in place, give the word. -/
theorem fields_reassemble (bits : Nat) (h : bits < 2 ^ 32) :
    (bits / 2 ^ 31 % 2) <<< 31 ||| (bits / 2 ^ 23 % 2 ^ 8) <<< 23 ||| (bits % 2 ^ 23) = bits := by
  have hf : bits % 2 ^ 23 < 2 ^ 23 := Nat.mod_lt _ (by norm_num)
  have he : (bits / 2 ^ 23 % 2 ^ 8) * 2 ^ 23 < 2 ^ 31 := by
    have : bits / 2 ^ 23 % 2 ^ 8 < 2 ^ 8 := Nat.mod_lt _ (by norm_num)
    omega
  have h1 := Nat.mul_add_lt_is_or he (bits / 2 ^ 31 % 2)
  have h2 := Nat.mul_add_lt_is_or hf ((bits / 2 ^ 31 % 2) * 2 ^ 8 + bits / 2 ^ 23 % 2 ^ 8)
  have h3 : 2 ^ 23 * ((bits / 2 ^ 31 % 2) * 2 ^ 8 + bits / 2 ^ 23 % 2 ^ 8)
      = 2 ^ 31 * (bits / 2 ^ 31 % 2) + (bits / 2 ^ 23 % 2 ^ 8) * 2 ^ 23 := by ring
  simp only [Nat.shiftLeft_eq]
  rw [Nat.mul_comm (bits / 2 ^ 31 % 2) (2 ^ 31), ← h1, ← h3, ← h2]
  norm_num at h ⊢
  omega

/-! ## Lemmas about `print_bit_range` -/

theorem fmt_d_bit (b : Nat) (hb : b < 2) :
    fmt_d (toInt32 b) = [OutItem.ch (if b = 1 then '1' else '0')] := by
  interval_cases b <;> rfl

/-- The characters printed by the loop of `print_bit_range`: bit `i` first,
then bit `i - 1`, and so on, `n` of them. -/
theorem print_bit_range_loop_eq (value : Nat) :
    ∀ (n i : Nat), n ≤ i + 1 → i ≤ 31 →
      print_bit_range_loop value n (i : Int)
        = some ((List.range n).map
            (fun k => OutItem.ch (if value / 2 ^ (i - k) % 2 = 1 then '1' else '0'))) := by
  intro n
  induction n with
  | zero => intro i _ _; rfl
  | succ n ih =>
    intro i hn hi
    have hbit : value / 2 ^ i % 2 < 2 := Nat.mod_lt _ (by norm_num)
    have hrest : print_bit_range_loop value n ((i : Int) - 1)
        = some ((List.range n).map
            (fun k => OutItem.ch (if value / 2 ^ (i - 1 - k) % 2 = 1 then '1' else '0'))) := by
      cases n with
      | zero => rfl
      | succ m =>
        have hcast : ((i : Int) - 1) = ((i - 1 : Nat) : Int) := by omega
        rw [hcast]
        exact ih (i - 1) (by omega) (by omega)
    simp only [print_bit_range_loop, extract_bit_range_single value i hi, hrest,
      Option.bind_eq_bind, Option.some_bind, Option.pure_def, fmt_d_bit _ hbit]
    rw [List.range_succ_eq_map]
    simp only [List.map_cons, List.map_map, List.singleton_append, Nat.sub_zero]
    congr 2
    apply List.map_congr_left
    intro k _
    simp only [Function.comp, Nat.succ_eq_add_one]
    rw [Nat.sub_sub, Nat.add_comm 1 k]

theorem print_bit_range_eq (value : Nat) (high low : Nat) (hle : low ≤ high) (hhigh : high ≤ 31) :
    print_bit_range value (high : Int) (low : Int)
      = some ((List.range (high - low + 1)).map
          (fun k => OutItem.ch (if value / 2 ^ (high - k) % 2 = 1 then '1' else '0'))) := by
  have hcount : ((high : Int) - (low : Int) + 1).toNat = high - low + 1 := by omega
  simp only [print_bit_range, hcount]
  exact print_bit_range_loop_eq value (high - low + 1) high (by omega) hhigh

/-! ## Lemmas about `print_float_details` -/

theorem print_bit_range_exponent (bits : Nat) :
    print_bit_range bits EXPONENT_HIGH_BIT EXPONENT_LOW_BIT
      = some ((List.range 8).map
          (fun k => OutItem.ch (if bits / 2 ^ (30 - k) % 2 = 1 then '1' else '0'))) :=
  print_bit_range_eq bits 30 23 (by norm_num) (by norm_num)

theorem print_bit_range_fraction (bits : Nat) :
    print_bit_range bits FRACTION_HIGH_BIT FRACTION_LOW_BIT
      = some ((List.range 23).map
          (fun k => OutItem.ch (if bits / 2 ^ (22 - k) % 2 = 1 then '1' else '0'))) :=
  print_bit_range_eq bits 22 0 (by norm_num) (by norm_num)

theorem shl32_fraction_size :
    shl32 1 (FRACTION_HIGH_BIT - FRACTION_LOW_BIT + 1) = some (2 ^ 23) :=
  shl32_one 23 (by norm_num)

theorem print_float_details_cls (bits : Nat) :
    (print_float_details bits).map Details.cls
      = some (if bits / 2 ^ 23 % 2 ^ 8 = 255 then
                (if bits % 2 ^ 23 = 0 then FloatClass.Infinity else FloatClass.NaN)
              else if bits / 2 ^ 23 % 2 ^ 8 = 0 then FloatClass.Denormal
              else FloatClass.Normal) := by
  simp only [print_float_details, print_bit_range_exponent, print_bit_range_fraction,
    shl32_fraction_size, Option.bind_eq_bind, Option.some_bind, Option.pure_def]
  simp only [SIGN_BIT, EXPONENT_HIGH_BIT, EXPONENT_LOW_BIT, FRACTION_HIGH_BIT, FRACTION_LOW_BIT,
    EXPONENT_INF_NAN, extract_bit_range_sign, extract_bit_range_exponent,
    extract_bit_range_fraction, Option.some_bind]
  split_ifs <;> rfl

theorem print_float_details_isSome (bits : Nat) :
    ∃ d, print_float_details bits = some d := by
  simp only [print_float_details, print_bit_range_exponent, print_bit_range_fraction,
    shl32_fraction_size, Option.bind_eq_bind, Option.some_bind, Option.pure_def]
  simp only [SIGN_BIT, EXPONENT_HIGH_BIT, EXPONENT_LOW_BIT, FRACTION_HIGH_BIT, FRACTION_LOW_BIT,
    EXPONENT_INF_NAN, extract_bit_range_sign, extract_bit_range_exponent,
    extract_bit_range_fraction, Option.some_bind]
  split_ifs <;> exact ⟨_, rfl⟩

theorem print_float_details_sign_bit (bits : Nat) :
    (print_float_details bits).map Details.sign_bit = some (bits / 2 ^ 31 % 2) := by
  simp only [print_float_details, print_bit_range_exponent, print_bit_range_fraction,
    shl32_fraction_size, Option.bind_eq_bind, Option.some_bind, Option.pure_def]
  simp only [SIGN_BIT, EXPONENT_HIGH_BIT, EXPONENT_LOW_BIT, FRACTION_HIGH_BIT, FRACTION_LOW_BIT,
    EXPONENT_INF_NAN, extract_bit_range_sign, extract_bit_range_exponent,
    extract_bit_range_fraction, Option.some_bind]
  split_ifs <;> rfl

theorem print_float_details_exponent_bits (bits : Nat) :
    (print_float_details bits).map Details.exponent_bits = some (bits / 2 ^ 23 % 2 ^ 8) := by
  simp only [print_float_details, print_bit_range_exponent, print_bit_range_fraction,
    shl32_fraction_size, Option.bind_eq_bind, Option.some_bind, Option.pure_def]
  simp only [SIGN_BIT, EXPONENT_HIGH_BIT, EXPONENT_LOW_BIT, FRACTION_HIGH_BIT, FRACTION_LOW_BIT,
    EXPONENT_INF_NAN, extract_bit_range_sign, extract_bit_range_exponent,
    extract_bit_range_fraction, Option.some_bind]
  split_ifs <;> rfl

theorem print_float_details_fraction_bits (bits : Nat) :
    (print_float_details bits).map Details.fraction_bits = some (bits % 2 ^ 23) := by
  simp only [print_float_details, print_bit_range_exponent, print_bit_range_fraction,
    shl32_fraction_size, Option.bind_eq_bind, Option.some_bind, Option.pure_def]
  simp only [SIGN_BIT, EXPONENT_HIGH_BIT, EXPONENT_LOW_BIT, FRACTION_HIGH_BIT, FRACTION_LOW_BIT,
    EXPONENT_INF_NAN, extract_bit_range_sign, extract_bit_range_exponent,
    extract_bit_range_fraction, Option.some_bind]
  split_ifs <;> rfl

theorem print_float_details_sign_value (bits : Nat) :
    (print_float_details bits).map Details.sign_value
      = some (if bits / 2 ^ 31 % 2 = 1 then -1 else 1) := by
  simp only [print_float_details, print_bit_range_exponent, print_bit_range_fraction,
    shl32_fraction_size, Option.bind_eq_bind, Option.some_bind, Option.pure_def]
  simp only [SIGN_BIT, EXPONENT_HIGH_BIT, EXPONENT_LOW_BIT, FRACTION_HIGH_BIT, FRACTION_LOW_BIT,
    EXPONENT_INF_NAN, extract_bit_range_sign, extract_bit_range_exponent,
    extract_bit_range_fraction, Option.some_bind]
  split_ifs <;> rfl

theorem print_float_details_sign_char (bits : Nat) :
    (print_float_details bits).map Details.sign_char
      = some (if bits / 2 ^ 31 % 2 = 1 then '-' else '+') := by
  simp only [print_float_details, print_bit_range_exponent, print_bit_range_fraction,
    shl32_fraction_size, Option.bind_eq_bind, Option.some_bind, Option.pure_def]
  simp only [SIGN_BIT, EXPONENT_HIGH_BIT, EXPONENT_LOW_BIT, FRACTION_HIGH_BIT, FRACTION_LOW_BIT,
    EXPONENT_INF_NAN, extract_bit_range_sign, extract_bit_range_exponent,
    extract_bit_range_fraction, Option.some_bind]
  split_ifs <;> rfl

theorem print_float_details_implicit_bit (bits : Nat) :
    (print_float_details bits).map Details.implicit_bit
      = some (if bits / 2 ^ 23 % 2 ^ 8 = 0 then 0 else 1) := by
  simp only [print_float_details, print_bit_range_exponent, print_bit_range_fraction,
    shl32_fraction_size, Option.bind_eq_bind, Option.some_bind, Option.pure_def]
  simp only [SIGN_BIT, EXPONENT_HIGH_BIT, EXPONENT_LOW_BIT, FRACTION_HIGH_BIT, FRACTION_LOW_BIT,
    EXPONENT_INF_NAN, extract_bit_range_sign, extract_bit_range_exponent,
    extract_bit_range_fraction, Option.some_bind]
  split_ifs <;> first | rfl | omega

/-- The subtraction `exponent_bits - EXPONENT_OFFSET` wraps around below 127,
and the conversion to `int` undoes the wrap. -/
theorem toInt32_sub32_offset (e : Nat) (he : e < 256) :
    toInt32 (sub32 e EXPONENT_OFFSET) = (e : Int) - 127 := by
  simp only [toInt32, sub32, EXPONENT_OFFSET]
  norm_num
  split_ifs <;> omega

theorem print_float_details_exponent (bits : Nat) :
    (print_float_details bits).map Details.exponent
      = some (if bits / 2 ^ 23 % 2 ^ 8 = 0 then -126
              else ((bits / 2 ^ 23 % 2 ^ 8 : Nat) : Int) - 127) := by
  have he : bits / 2 ^ 23 % 2 ^ 8 < 256 := Nat.mod_lt _ (by norm_num)
  simp only [print_float_details, print_bit_range_exponent, print_bit_range_fraction,
    shl32_fraction_size, Option.bind_eq_bind, Option.some_bind, Option.pure_def]
  simp only [SIGN_BIT, EXPONENT_HIGH_BIT, EXPONENT_LOW_BIT, FRACTION_HIGH_BIT, FRACTION_LOW_BIT,
    EXPONENT_INF_NAN, extract_bit_range_sign, extract_bit_range_exponent,
    extract_bit_range_fraction, Option.some_bind]
  simp only [toInt32_sub32_offset _ he]
  split_ifs <;> simp only [Option.map_some', Option.some.injEq] <;> omega

theorem print_float_details_fraction (bits : Nat) :
    (print_float_details bits).map Details.fraction
      = some (if bits / 2 ^ 23 % 2 ^ 8 = 255 then none
              else some ((((if bits / 2 ^ 23 % 2 ^ 8 = 0 then 0 else 1 : Int) : ℚ)
                          + ((bits % 2 ^ 23 : Nat) : ℚ) / ((2 ^ 23 : Nat) : ℚ))
                         * ((if bits / 2 ^ 31 % 2 = 1 then -1 else 1 : Int) : ℚ))) := by
  simp only [print_float_details, print_bit_range_exponent, print_bit_range_fraction,
    shl32_fraction_size, Option.bind_eq_bind, Option.some_bind, Option.pure_def]
  simp only [SIGN_BIT, EXPONENT_HIGH_BIT, EXPONENT_LOW_BIT, FRACTION_HIGH_BIT, FRACTION_LOW_BIT,
    EXPONENT_INF_NAN, extract_bit_range_sign, extract_bit_range_exponent,
    extract_bit_range_fraction, Option.some_bind]
  split_ifs <;> rfl

theorem print_float_details_number (bits : Nat) :
    (print_float_details bits).map Details.number
      = some (if bits / 2 ^ 23 % 2 ^ 8 = 255 then none
              else some ((((if bits / 2 ^ 23 % 2 ^ 8 = 0 then 0 else 1 : Int) : ℚ)
                          + ((bits % 2 ^ 23 : Nat) : ℚ) / ((2 ^ 23 : Nat) : ℚ))
                         * ((if bits / 2 ^ 31 % 2 = 1 then -1 else 1 : Int) : ℚ)
                         * exp2 (if bits / 2 ^ 23 % 2 ^ 8 = 0 then -126
                                 else ((bits / 2 ^ 23 % 2 ^ 8 : Nat) : Int) - 127))) := by
  have he : bits / 2 ^ 23 % 2 ^ 8 < 256 := Nat.mod_lt _ (by norm_num)
  simp only [print_float_details, print_bit_range_exponent, print_bit_range_fraction,
    shl32_fraction_size, Option.bind_eq_bind, Option.some_bind, Option.pure_def]
  simp only [SIGN_BIT, EXPONENT_HIGH_BIT, EXPONENT_LOW_BIT, FRACTION_HIGH_BIT, FRACTION_LOW_BIT,
    EXPONENT_INF_NAN, extract_bit_range_sign, extract_bit_range_exponent,
    extract_bit_range_fraction, Option.some_bind]
  simp only [toInt32_sub32_offset _ he]
  split_ifs <;> first | rfl | omega | (simp only [Option.map_some', Option.some.injEq, *]; norm_num)

theorem print_float_details_power (bits : Nat) :
    (print_float_details bits).map Details.power
      = some (if bits / 2 ^ 23 % 2 ^ 8 = 255 then none
              else some (exp2 (if bits / 2 ^ 23 % 2 ^ 8 = 0 then -126
                               else ((bits / 2 ^ 23 % 2 ^ 8 : Nat) : Int) - 127))) := by
  have he : bits / 2 ^ 23 % 2 ^ 8 < 256 := Nat.mod_lt _ (by norm_num)
  simp only [print_float_details, print_bit_range_exponent, print_bit_range_fraction,
    shl32_fraction_size, Option.bind_eq_bind, Option.some_bind, Option.pure_def]
  simp only [SIGN_BIT, EXPONENT_HIGH_BIT, EXPONENT_LOW_BIT, FRACTION_HIGH_BIT, FRACTION_LOW_BIT,
    EXPONENT_INF_NAN, extract_bit_range_sign, extract_bit_range_exponent,
    extract_bit_range_fraction, Option.some_bind]
  simp only [toInt32_sub32_offset _ he]
  split_ifs <;> first | rfl | omega | (simp only [Option.map_some', Option.some.injEq, *]; norm_num)

/-- The eight characters printed for a raw exponent of 255. -/
theorem exponent_text_all_ones (bits : Nat) (he : bits / 2 ^ 23 % 2 ^ 8 = 255) :
    (List.range 8).map (fun k => OutItem.ch (if bits / 2 ^ (30 - k) % 2 = 1 then '1' else '0'))
      = text "11111111" := by
  have hbit : ∀ k, k < 8 → bits / 2 ^ (30 - k) % 2 = 1 := by
    intro k hk
    norm_num at he
    interval_cases k <;> norm_num <;> omega
  have hmap : (List.range 8).map
      (fun k => OutItem.ch (if bits / 2 ^ (30 - k) % 2 = 1 then '1' else '0'))
      = (List.range 8).map (fun _ => OutItem.ch '1') := by
    apply List.map_congr_left
    intro k hk
    rw [if_pos (hbit k (List.mem_range.1 hk))]
  rw [hmap]
  rfl

/-- The whole text printed on the path for a raw exponent of 255. -/
theorem print_float_details_out_special (bits : Nat) (he : bits / 2 ^ 23 % 2 ^ 8 = 255) :
    (print_float_details bits).map Details.out
      = some (text "sign bit = " ++ [OutItem.ch (if bits / 2 ^ 31 % 2 = 1 then '1' else '0')]
          ++ text "\nsign = " ++ [OutItem.ch (if bits / 2 ^ 31 % 2 = 1 then '-' else '+')]
          ++ text "\n\nraw exponent    = 11111111 binary\n                = 255 decimal\n"
          ++ (if bits % 2 ^ 23 = 0 then
                text "number = "
                  ++ [OutItem.ch (if bits / 2 ^ 31 % 2 = 1 then '-' else '+')] ++ text "inf\n\n"
              else text "number = NaN\n\n")) := by
  have hs : bits / 2 ^ 31 % 2 < 2 := Nat.mod_lt _ (by norm_num)
  simp only [print_float_details, print_bit_range_exponent, print_bit_range_fraction,
    shl32_fraction_size, Option.bind_eq_bind, Option.some_bind, Option.pure_def]
  simp only [SIGN_BIT, EXPONENT_HIGH_BIT, EXPONENT_LOW_BIT, FRACTION_HIGH_BIT, FRACTION_LOW_BIT,
    EXPONENT_INF_NAN, extract_bit_range_sign, extract_bit_range_exponent,
    extract_bit_range_fraction, Option.some_bind]
  simp only [he, if_true, exponent_text_all_ones bits he, fmt_d_bit _ hs]
  split_ifs <;> rfl

/-! ## Lemmas about `convert_bitstring_to_uint32` -/

theorem str_at_of_getElem? (s : List Char) (i : Nat) (c : Char) (h : s[i]? = some c) :
    str_at s i = some c := by
  have hi : i < s.length := by
    by_contra hcon
    rw [List.getElem?_eq_none (by omega)] at h
    exact Option.noConfusion h
  simp only [str_at, List.getElem?_append_left hi, h]

/-- The value `bit << i` for a bit and a position inside the word. -/
theorem shl32_bit (b : Bool) (i : Nat) (hi : i < 32) :
    shl32 (if b then 1 else 0) (i : Int) = some (if b then 2 ^ i else 0) := by
  have h : (2 : Nat) ^ i < 2 ^ 32 := Nat.pow_lt_pow_right (by norm_num) hi
  simp only [shl32]
  rw [if_pos ⟨by omega, by omega⟩]
  cases b
  · simp
  · simp only [if_true, Int.toNat_ofNat, Nat.shiftLeft_eq, one_mul, Nat.mod_eq_of_lt h]

/-- Invariant of the decoding loop: from the state `(i, bits)` it ends with
the bits below `i` as they are in `bits`, and bit `j` for `i ≤ j < 32` set when
the character at index `31 - j` is not the digit zero. -/
theorem convert_bitstring_loop_spec (s : List Char)
    (hs : ∀ i, i < 32 → ∃ c, s[i]? = some c ∧ c ≠ NUL) :
    ∀ (fuel i bits : Nat), i ≤ 32 → 33 ≤ fuel + i → bits < 2 ^ 32 →
      ∃ r, convert_bitstring_loop s fuel i bits = some r ∧ r < 2 ^ 32 ∧
        ∀ j, r.testBit j
          = (bits.testBit j || (decide (i ≤ j ∧ j < 32) && decide (s[31 - j]? ≠ some '0'))) := by
  intro fuel
  induction fuel with
  | zero => intro i bits hi hfuel _; omega
  | succ fuel ih =>
    intro i bits hi hfuel hbits
    by_cases hlt : i < 32
    · obtain ⟨c, hc, hcn⟩ := hs i hlt
      obtain ⟨a, ha, _⟩ := hs (31 - i) (by omega)
      have hsh := shl32_bit (decide (a ≠ '0')) i hlt
      have hshifted : (if decide (a ≠ '0') = true then 2 ^ i else 0) < 2 ^ 32 := by
        have h : (2 : Nat) ^ i < 2 ^ 32 := Nat.pow_lt_pow_right (by norm_num) hlt
        split_ifs <;> omega
      obtain ⟨r, hr, hr32, hrbits⟩ :=
        ih (i + 1) (bits ||| (if decide (a ≠ '0') = true then 2 ^ i else 0)) (by omega) (by omega)
          (Nat.or_lt_two_pow hbits hshifted)
      refine ⟨r, ?_, hr32, ?_⟩
      · simp only [convert_bitstring_loop, N_BITS, if_pos hlt, str_at_of_getElem? s i c hc,
          str_at_of_getElem? s (31 - i) a ha, Option.bind_eq_bind, Option.some_bind,
          if_pos hcn]
        simp only [decide_eq_true_eq] at hsh
        simp only [Nat.add_one_sub_one, hsh, Option.some_bind]
        simpa using hr
      · intro j
        rw [hrbits j, Nat.testBit_or]
        by_cases hji : j = i
        · subst hji
          by_cases ha0 : a = '0'
          · simp [ha0, ha, hlt]
          · simp [ha0, ha, hlt, Nat.testBit_two_pow_self]
        · have hne : (if decide (a ≠ '0') = true then 2 ^ i else 0).testBit j = false := by
            split_ifs
            · exact Nat.testBit_two_pow_of_ne (fun h => hji h.symm)
            · exact Nat.zero_testBit j
          rw [hne, Bool.or_false]
          have hiff : (i + 1 ≤ j ∧ j < 32) ↔ (i ≤ j ∧ j < 32) := by omega
          simp only [hiff]
    · have hi32 : i = 32 := by omega
      refine ⟨bits, ?_, hbits, ?_⟩
      · simp only [convert_bitstring_loop, N_BITS, if_neg hlt, Option.pure_def]
      · intro j
        have hfalse : ¬ (i ≤ j ∧ j < 32) := by omega
        simp [hfalse]

/-- On a string whose first 32 characters are there, `convert_bitstring_to_uint32`
returns a 32-bit value, and bit `j` of it is set when the character at index
`31 - j` is not the digit zero. -/
theorem convert_bitstring_to_uint32_spec (s : List Char)
    (hs : ∀ i, i < 32 → ∃ c, s[i]? = some c ∧ c ≠ NUL) :
    ∃ r, convert_bitstring_to_uint32 s = some r ∧ r < 2 ^ 32 ∧
      ∀ j, r.testBit j = (decide (j < 32) && decide (s[31 - j]? ≠ some '0')) := by
  obtain ⟨r, hr, hr32, hrbits⟩ :=
    convert_bitstring_loop_spec s hs 33 0 0 (by norm_num) (by norm_num) (by norm_num)
  refine ⟨r, hr, hr32, ?_⟩
  intro j
  rw [hrbits j]
  simp

/-! ## Lemmas about `strspn` and `display_float` -/

/-- The longest prefix satisfying `p` has length `n` exactly when the first `n`
elements satisfy `p` and the next one, if there is one, does not. -/
theorem length_takeWhile_eq_iff (p : Char → Bool) :
    ∀ (l : List Char) (n : Nat), (l.takeWhile p).length = n ↔
      ((∀ i, i < n → ∃ c, l[i]? = some c ∧ p c = true) ∧ ∀ c, l[n]? = some c → p c = false) := by
  intro l
  induction l with
  | nil =>
    intro n
    cases n with
    | zero => simp
    | succ m =>
      simp only [List.takeWhile_nil, List.length_nil, List.getElem?_nil]
      constructor
      · intro h; omega
      · intro h
        obtain ⟨c, hc, _⟩ := h.1 0 (by omega)
        exact Option.noConfusion hc
  | cons a t ih =>
    intro n
    by_cases hpa : p a = true
    · rw [List.takeWhile_cons_of_pos hpa, List.length_cons]
      cases n with
      | zero =>
        constructor
        · intro h; omega
        · intro h
          have := h.2 a (by simp)
          rw [hpa] at this
          exact Bool.noConfusion this
      | succ m =>
        rw [Nat.add_right_cancel_iff, ih m]
        constructor
        · intro h
          refine ⟨?_, ?_⟩
          · intro i hi
            cases i with
            | zero => exact ⟨a, by simp, hpa⟩
            | succ k => simpa using h.1 k (by omega)
          · intro c hc
            exact h.2 c (by simpa using hc)
        · intro h
          refine ⟨?_, ?_⟩
          · intro i hi
            simpa using h.1 (i + 1) (by omega)
          · intro c hc
            exact h.2 c (by simpa using hc)
    · rw [List.takeWhile_cons_of_neg hpa, List.length_nil]
      have hpa2 : p a = false := by simpa using hpa
      cases n with
      | zero =>
        simp only [true_iff]
        refine ⟨?_, ?_⟩
        · intro i hi; omega
        · intro c hc
          simp only [List.getElem?_cons_zero, Option.some.injEq] at hc
          rw [← hc]; exact hpa2
      | succ m =>
        constructor
        · intro h; omega
        · intro h
          obtain ⟨c, hc, hpc⟩ := h.1 0 (by omega)
          simp only [List.getElem?_cons_zero, Option.some.injEq] at hc
          rw [← hc, hpa2] at hpc
          exact Bool.noConfusion hpc

theorem contains_zero_one (c : Char) : "01".toList.contains c = true ↔ c = '0' ∨ c = '1' := by
  simp [String.toList, List.contains]

/-- What `strspn(argument, "01") == 32` says about the characters. -/
theorem strspn_eq_32_iff (argument : List Char) :
    strspn argument "01".toList = 32 ↔
      ((∀ i, i < 32 → argument[i]? = some '0' ∨ argument[i]? = some '1') ∧
        argument[32]? ≠ some '0' ∧ argument[32]? ≠ some '1') := by
  simp only [strspn]
  rw [length_takeWhile_eq_iff]
  constructor
  · intro h
    refine ⟨?_, ?_, ?_⟩
    · intro i hi
      obtain ⟨c, hc, hpc⟩ := h.1 i hi
      rcases (contains_zero_one c).1 hpc with h0 | h1
      · left; rw [hc, h0]
      · right; rw [hc, h1]
    · intro hc
      have := h.2 '0' hc
      simp [String.toList, List.contains] at this
    · intro hc
      have := h.2 '1' hc
      simp [String.toList, List.contains] at this
  · intro h
    refine ⟨?_, ?_⟩
    · intro i hi
      rcases h.1 i hi with h0 | h1
      · exact ⟨'0', h0, (contains_zero_one '0').2 (Or.inl rfl)⟩
      · exact ⟨'1', h1, (contains_zero_one '1').2 (Or.inr rfl)⟩
    · intro c hc
      by_contra hcon
      have hpc : "01".toList.contains c = true := by
        revert hcon
        cases "01".toList.contains c
        · intro hcon; exact absurd rfl hcon
        · intro _; rfl
      rcases (contains_zero_one c).1 hpc with h0 | h1
      · rw [h0] at hc; exact h.2.1 hc
      · rw [h1] at hc; exact h.2.2 hc

theorem length_ge_of_strspn (argument : List Char) (h : strspn argument "01".toList = 32) :
    32 ≤ argument.length := by
  have hle : (argument.takeWhile (fun c => "01".toList.contains c)).length ≤ argument.length :=
    (List.takeWhile_sublist _).length_le
  simp only [strspn] at h
  omega

theorem print_float_bits_isSome (bits : Nat) : ∃ l, print_float_bits bits = some l := by
  have hall := print_bit_range_eq bits 31 0 (by norm_num) (by norm_num)
  have hsign := print_bit_range_eq bits 31 31 (by norm_num) (by norm_num)
  simp only [Nat.cast_ofNat, Nat.cast_zero] at hall hsign
  have h31 : ((8 : Int) * 4 - 1) = 31 := by norm_num
  simp only [print_float_bits, h31, hall, SIGN_BIT, hsign]
  simp only [print_bit_range_exponent, print_bit_range_fraction, Option.bind_eq_bind,
    Option.some_bind, Option.pure_def]
  exact ⟨_, rfl⟩

/-- The function `display_float` returns on every argument, and it takes the
bit-string branch exactly when `strspn(argument, "01")` is 32. -/
theorem display_float_spec (float_bits : List Char → Nat) (argument : List Char) :
    ∃ d, display_float float_bits argument = some d ∧
      (d.bit_pattern = true ↔ strspn argument "01".toList = 32) := by
  by_cases hspn : strspn argument "01".toList = 32
  · have hlen := length_ge_of_strspn argument hspn
    have hs : ∀ i, i < 32 → ∃ c, argument[i]? = some c ∧ c ≠ NUL := by
      intro i hi
      rcases ((strspn_eq_32_iff argument).1 hspn).1 i hi with h0 | h1
      · exact ⟨'0', h0, by decide⟩
      · exact ⟨'1', h1, by decide⟩
    obtain ⟨r, hr, _, _⟩ := convert_bitstring_to_uint32_spec argument hs
    obtain ⟨d, hd⟩ := print_float_details_isSome r
    have hcond : strlen argument > N_BITS - 4 ∧ strspn argument "01".toList = N_BITS := by
      simp only [strlen, N_BITS]
      exact ⟨by omega, hspn⟩
    refine ⟨{ bit_pattern := true, bits := r, out := d.out }, ?_, ?_⟩
    · simp only [display_float, if_pos hcond, hr, hd, Option.bind_eq_bind, Option.some_bind,
        Option.pure_def]
    · exact ⟨fun _ => hspn, fun _ => rfl⟩
  · obtain ⟨l, hl⟩ := print_float_bits_isSome (float_bits argument)
    obtain ⟨d, hd⟩ := print_float_details_isSome (float_bits argument)
    have hcond : ¬ (strlen argument > N_BITS - 4 ∧ strspn argument "01".toList = N_BITS) := by
      simp only [N_BITS]
      exact fun h => hspn h.2
    refine ⟨{ bit_pattern := false, bits := float_bits argument,
              out := text "\n" ++ argument.map OutItem.ch
                ++ text " is represented as a float (IEEE-754 single-precision) by these bits:\n\n"
                ++ l ++ d.out }, ?_, ?_⟩
    · simp only [display_float, if_neg hcond, hl, hd, Option.bind_eq_bind, Option.some_bind,
        Option.pure_def]
    · exact ⟨fun h => Bool.noConfusion h, fun h => absurd h hspn⟩

/-! ## The field partition (C1) -/

/-- C1: for every 32-bit value `bits`, `print_float_details` returns, its
`sign_bit`, `exponent_bits` and `fraction_bits` are the results of
`extract_bit_range` on the ranges 31..31, 30..23 and 22..0, and
`(sign_bit << 31) | (exponent_bits << 23) | fraction_bits`, computed on
`uint32_t`, is `bits` again. -/
theorem field_partition_reassembles (bits : Nat) (h : bits < 2 ^ 32) :
    ∃ d, print_float_details bits = some d ∧
      extract_bit_range bits SIGN_BIT SIGN_BIT = some d.sign_bit ∧
      extract_bit_range bits EXPONENT_HIGH_BIT EXPONENT_LOW_BIT = some d.exponent_bits ∧
      extract_bit_range bits FRACTION_HIGH_BIT FRACTION_LOW_BIT = some d.fraction_bits ∧
      ∃ hi mid, shl32 d.sign_bit 31 = some hi ∧ shl32 d.exponent_bits 23 = some mid ∧
        hi ||| mid ||| d.fraction_bits = bits := by
  obtain ⟨d, hd⟩ := print_float_details_isSome bits
  have hs := print_float_details_sign_bit bits
  have he := print_float_details_exponent_bits bits
  have hf := print_float_details_fraction_bits bits
  rw [hd] at hs he hf
  simp only [Option.map_some', Option.some.injEq] at hs he hf
  have hs2 : bits / 2 ^ 31 % 2 < 2 := Nat.mod_lt _ (by norm_num)
  have he2 : bits / 2 ^ 23 % 2 ^ 8 < 2 ^ 8 := Nat.mod_lt _ (by norm_num)
  refine ⟨d, hd, ?_, ?_, ?_, (bits / 2 ^ 31 % 2) <<< 31, (bits / 2 ^ 23 % 2 ^ 8) <<< 23,
    ?_, ?_, ?_⟩
  · rw [hs]; exact extract_bit_range_sign bits
  · rw [he]; exact extract_bit_range_exponent bits
  · rw [hf]; exact extract_bit_range_fraction bits
  · rw [hs]
    have hfit : (bits / 2 ^ 31 % 2) * 2 ^ 31 < 2 ^ 32 := by omega
    simpa using shl32_of_lt (bits / 2 ^ 31 % 2) 31 (by norm_num) hfit
  · rw [he]
    have hfit : (bits / 2 ^ 23 % 2 ^ 8) * 2 ^ 23 < 2 ^ 32 := by omega
    simpa using shl32_of_lt (bits / 2 ^ 23 % 2 ^ 8) 23 (by norm_num) hfit
  · rw [hf]; exact fields_reassemble bits h

theorem field_partition_reassembles_witness :
    ∃ d, print_float_details 0x3E200000 = some d ∧
      extract_bit_range 0x3E200000 SIGN_BIT SIGN_BIT = some d.sign_bit ∧
      extract_bit_range 0x3E200000 EXPONENT_HIGH_BIT EXPONENT_LOW_BIT = some d.exponent_bits ∧
      extract_bit_range 0x3E200000 FRACTION_HIGH_BIT FRACTION_LOW_BIT = some d.fraction_bits ∧
      ∃ hi mid, shl32 d.sign_bit 31 = some hi ∧ shl32 d.exponent_bits 23 = some mid ∧
        hi ||| mid ||| d.fraction_bits = 0x3E200000 :=
  field_partition_reassembles 0x3E200000 (by decide)

/-! ## The full-width range of `extract_bit_range` (C2) -/

/-- C2: on the full-width range 31..0 the mask of `extract_bit_range` is
computed by the shift `1 << 32` of a 32-bit operand, which has no defined
result, for every value; the bits 0..31 of `0xFFFFFFFF`, which the function
is to return there, are `0xFFFFFFFF`. -/
theorem extract_bit_range_full_width_undefined :
    (∀ value, extract_bit_range value 31 0 = none) ∧
      shl32 1 (31 - 0 + 1) = none ∧
      0xFFFFFFFF / 2 ^ 0 % 2 ^ (31 - 0 + 1) = 0xFFFFFFFF := by
  refine ⟨?_, ?_, ?_⟩
  · intro value
    simp [extract_bit_range, shl32]
  · simp [shl32]
  · norm_num

/-! ## Classification (C3) -/

/-- C3: for every 32-bit pattern, `print_float_details` returns and the path
it takes is Infinity iff the raw exponent is 255 and the fraction is 0, NaN iff
the raw exponent is 255 and the fraction is not 0, Denormal iff the raw
exponent is 0, Normal iff the raw exponent is in 1..254; the raw exponent and
the fraction are the fields of the pattern, and any 32-bit pattern that differs
at most in the sign bit takes the same path. -/
theorem classification_by_exponent_and_fraction (bits : Nat) (_h : bits < 2 ^ 32) :
    ∃ d, print_float_details bits = some d ∧
      d.exponent_bits = bits / 2 ^ 23 % 2 ^ 8 ∧ d.fraction_bits = bits % 2 ^ 23 ∧
      (d.cls = FloatClass.Infinity ↔ d.exponent_bits = 255 ∧ d.fraction_bits = 0) ∧
      (d.cls = FloatClass.NaN ↔ d.exponent_bits = 255 ∧ d.fraction_bits ≠ 0) ∧
      (d.cls = FloatClass.Denormal ↔ d.exponent_bits = 0) ∧
      (d.cls = FloatClass.Normal ↔ 1 ≤ d.exponent_bits ∧ d.exponent_bits ≤ 254) ∧
      ∀ other, other < 2 ^ 32 → other % 2 ^ 31 = bits % 2 ^ 31 →
        ∃ d2, print_float_details other = some d2 ∧ d2.cls = d.cls := by
  obtain ⟨d, hd⟩ := print_float_details_isSome bits
  have hc := print_float_details_cls bits
  have he := print_float_details_exponent_bits bits
  have hf := print_float_details_fraction_bits bits
  rw [hd] at hc he hf
  simp only [Option.map_some', Option.some.injEq] at hc he hf
  have he2 : bits / 2 ^ 23 % 2 ^ 8 < 2 ^ 8 := Nat.mod_lt _ (by norm_num)
  refine ⟨d, hd, he, hf, ?_, ?_, ?_, ?_, ?_⟩
  · simp only [hc, he, hf]; split_ifs <;> simp_all
  · simp only [hc, he, hf]; split_ifs <;> simp_all
  · simp only [hc, he]; split_ifs <;> simp_all
  · simp only [hc, he]
    norm_num at he2 ⊢
    split_ifs with h1 h2 h3
    · simp only [reduceCtorEq, false_iff]; omega
    · simp only [reduceCtorEq, false_iff]; omega
    · simp only [reduceCtorEq, false_iff]; omega
    · simp only [true_iff]; omega
  · intro other _ hsame
    obtain ⟨d2, hd2⟩ := print_float_details_isSome other
    have hc2 := print_float_details_cls other
    rw [hd2] at hc2
    simp only [Option.map_some', Option.some.injEq] at hc2
    have hexp : other / 2 ^ 23 % 2 ^ 8 = bits / 2 ^ 23 % 2 ^ 8 := by
      norm_num at hsame ⊢
      omega
    have hfrac : other % 2 ^ 23 = bits % 2 ^ 23 := by
      norm_num at hsame ⊢
      omega
    exact ⟨d2, hd2, by rw [hc2, hc, hexp, hfrac]⟩

theorem classification_by_exponent_and_fraction_witness :
    ∃ d, print_float_details 0x7FC00000 = some d ∧
      d.exponent_bits = 0x7FC00000 / 2 ^ 23 % 2 ^ 8 ∧ d.fraction_bits = 0x7FC00000 % 2 ^ 23 ∧
      (d.cls = FloatClass.Infinity ↔ d.exponent_bits = 255 ∧ d.fraction_bits = 0) ∧
      (d.cls = FloatClass.NaN ↔ d.exponent_bits = 255 ∧ d.fraction_bits ≠ 0) ∧
      (d.cls = FloatClass.Denormal ↔ d.exponent_bits = 0) ∧
      (d.cls = FloatClass.Normal ↔ 1 ≤ d.exponent_bits ∧ d.exponent_bits ≤ 254) ∧
      ∀ other, other < 2 ^ 32 → other % 2 ^ 31 = 0x7FC00000 % 2 ^ 31 →
        ∃ d2, print_float_details other = some d2 ∧ d2.cls = d.cls :=
  classification_by_exponent_and_fraction 0x7FC00000 (by decide)

/-! ## The classifier of `display_float` (C4) -/

/-- C4, as stated, fails: the token made of 32 zero digits followed by the
letter x has 33 characters, and the last one is no binary digit, yet
`display_float` takes the bit-string branch on it and decodes the bits 0. -/
theorem display_float_accepts_trailing_characters :
    ∃ d, display_float (fun _ => 0) "00000000000000000000000000000000x".toList = some d ∧
      d.bit_pattern = true ∧ d.bits = 0 ∧
      ¬ ("00000000000000000000000000000000x".toList.length = 32 ∧
          ∀ c ∈ "00000000000000000000000000000000x".toList, c = '0' ∨ c = '1') := by
  obtain ⟨d, hd, hiff⟩ :=
    display_float_spec (fun _ => 0) "00000000000000000000000000000000x".toList
  have hbp : d.bit_pattern = true := hiff.2 (by decide)
  have hconv : convert_bitstring_to_uint32 "00000000000000000000000000000000x".toList
      = some 0 := by decide
  refine ⟨d, hd, hbp, ?_, by decide⟩
  have hcond : strlen "00000000000000000000000000000000x".toList > N_BITS - 4 ∧
      strspn "00000000000000000000000000000000x".toList "01".toList = N_BITS := by decide
  simp only [display_float, if_pos hcond, hconv, Option.bind_eq_bind, Option.some_bind] at hd
  obtain ⟨d0, hd0⟩ := print_float_details_isSome 0
  simp only [hd0, Option.some_bind, Option.pure_def, Option.some.injEq] at hd
  rw [← hd]

/-- C4, amended: for every token `display_float` returns, and it treats the
token as bit-pattern input if and only if `strspn(argument, "01")` is 32, that
is the first 32 characters of the token are there and each is the digit 0 or
1, and the character after them, if the token has one, is neither. -/
theorem display_float_bit_pattern_iff (float_bits : List Char → Nat) (argument : List Char) :
    ∃ d, display_float float_bits argument = some d ∧
      (d.bit_pattern = true ↔ strspn argument "01".toList = 32) ∧
      (d.bit_pattern = true ↔
        ((∀ i, i < 32 → argument[i]? = some '0' ∨ argument[i]? = some '1') ∧
          argument[32]? ≠ some '0' ∧ argument[32]? ≠ some '1')) := by
  obtain ⟨d, hd, hiff⟩ := display_float_spec float_bits argument
  exact ⟨d, hd, hiff, hiff.trans (strspn_eq_32_iff argument)⟩

/-! ## The decoder (C5) -/

/-- C5: for every string of exactly 32 characters, each the digit 0 or 1,
`convert_bitstring_to_uint32` returns a 32-bit value whose bit `31 - i` is 1
iff the character at index `i` is not the digit 0, for every `i` in 0..31. -/
theorem convert_bitstring_msb_first (s : List Char) (hlen : s.length = 32)
    (hbin : ∀ c ∈ s, c = '0' ∨ c = '1') :
    ∃ r, convert_bitstring_to_uint32 s = some r ∧ r < 2 ^ 32 ∧
      ∀ i, i < 32 → (r.testBit (31 - i) = true ↔ s[i]? ≠ some '0') := by
  have hs : ∀ i, i < 32 → ∃ c, s[i]? = some c ∧ c ≠ NUL := by
    intro i hi
    have hi2 : i < s.length := by omega
    refine ⟨s[i], List.getElem?_eq_getElem hi2, ?_⟩
    rcases hbin s[i] (List.getElem_mem hi2) with h0 | h1
    · rw [h0]; decide
    · rw [h1]; decide
  obtain ⟨r, hr, hr32, hbits⟩ := convert_bitstring_to_uint32_spec s hs
  refine ⟨r, hr, hr32, ?_⟩
  intro i hi
  have hidx : 31 - (31 - i) = i := by omega
  have hlt : 31 - i < 32 := by omega
  rw [hbits (31 - i), hidx]
  simp [hlt]

theorem convert_bitstring_msb_first_witness :
    ∃ r, convert_bitstring_to_uint32 "00111101110011001100110011001101".toList = some r ∧
      r < 2 ^ 32 ∧
      ∀ i, i < 32 → (r.testBit (31 - i) = true
        ↔ "00111101110011001100110011001101".toList[i]? ≠ some '0') :=
  convert_bitstring_msb_first "00111101110011001100110011001101".toList (by decide) (by decide)

/-! ## The derived number (C6) -/

/-- C6: for every 32-bit pattern whose raw exponent is not 255,
`print_float_details` returns, its `fraction` is
`sign_value * (implicit_bit + fraction_bits / 2^23)`, and the number of its
last line, `fraction * exp2(exponent)`, is in exact arithmetic the IEEE-754
binary32 value of the pattern. -/
theorem derived_number_is_binary32_value (bits : Nat) (_h : bits < 2 ^ 32)
    (he : bits / 2 ^ 23 % 2 ^ 8 ≠ 255) :
    ∃ d significand, print_float_details bits = some d ∧
      d.fraction = some significand ∧
      significand
        = (d.sign_value : ℚ) * ((d.implicit_bit : ℚ) + (d.fraction_bits : ℚ) / 2 ^ 23) ∧
      d.power = some ((2 : ℚ) ^ d.exponent) ∧
      d.number = some (significand * (2 : ℚ) ^ d.exponent) ∧
      significand * (2 : ℚ) ^ d.exponent = ieee754_binary32_value bits := by
  obtain ⟨d, hd⟩ := print_float_details_isSome bits
  have hsv := print_float_details_sign_value bits
  have hib := print_float_details_implicit_bit bits
  have hfb := print_float_details_fraction_bits bits
  have hex := print_float_details_exponent bits
  have hfr := print_float_details_fraction bits
  have hpw := print_float_details_power bits
  have hnu := print_float_details_number bits
  rw [hd] at hsv hib hfb hex hfr hpw hnu
  simp only [Option.map_some', Option.some.injEq, if_neg he] at hsv hib hfb hex hfr hpw hnu
  refine ⟨d, _, hd, hfr, ?_, ?_, ?_, ?_⟩
  · rw [hsv, hib, hfb]
    push_cast
    ring
  · rw [hpw, hex]; rfl
  · rw [hnu, hex]; rfl
  · have hs : bits / 2 ^ 31 % 2 = 0 ∨ bits / 2 ^ 31 % 2 = 1 := by omega
    rw [hex]
    simp only [ieee754_binary32_value]
    by_cases h0 : bits / 2 ^ 23 % 2 ^ 8 = 0
    · simp only [if_pos h0]
      rcases hs with hs | hs
      · rw [hs]; push_cast; norm_num
      · rw [hs]; push_cast; norm_num
    · simp only [if_neg h0]
      rcases hs with hs | hs
      · rw [hs]; push_cast; norm_num
      · rw [hs]; push_cast; norm_num

theorem documented_run_0_15625 :
    convert_bitstring_to_uint32 "00111110001000000000000000000000".toList = some 0x3E200000 ∧
      (print_float_details 0x3E200000).map Details.fraction = some (some (5 / 4)) ∧
      (print_float_details 0x3E200000).map Details.exponent = some (-3) ∧
      (print_float_details 0x3E200000).map Details.number = some (some (5 / 32)) := by
  refine ⟨by decide, ?_, ?_, ?_⟩
  · rw [print_float_details_fraction]; norm_num
  · rw [print_float_details_exponent]; norm_num
  · rw [print_float_details_number]; norm_num [exp2]

theorem documented_run_150_75 :
    convert_bitstring_to_uint32 "01000011000101101100000000000000".toList = some 0x4316C000 ∧
      (print_float_details 0x4316C000).map Details.number = some (some (603 / 4)) := by
  refine ⟨by decide, ?_⟩
  rw [print_float_details_number]; norm_num [exp2]

theorem documented_run_minus_96_125 :
    convert_bitstring_to_uint32 "11000010110000000100000000000000".toList = some 0xC2C04000 ∧
      (print_float_details 0xC2C04000).map Details.number = some (some (-(769 / 8))) := by
  refine ⟨by decide, ?_⟩
  rw [print_float_details_number]; norm_num [exp2]

theorem derived_number_is_binary32_value_witness :
    (∃ d significand, print_float_details 0x3E200000 = some d ∧
      d.fraction = some significand ∧
      significand
        = (d.sign_value : ℚ) * ((d.implicit_bit : ℚ) + (d.fraction_bits : ℚ) / 2 ^ 23) ∧
      d.power = some ((2 : ℚ) ^ d.exponent) ∧
      d.number = some (significand * (2 : ℚ) ^ d.exponent) ∧
      significand * (2 : ℚ) ^ d.exponent = ieee754_binary32_value 0x3E200000) ∧
    (print_float_details 0x3E200000).map Details.number = some (some (5 / 32)) ∧
    (print_float_details 0x4316C000).map Details.number = some (some (603 / 4)) ∧
    (print_float_details 0xC2C04000).map Details.number = some (some (-(769 / 8))) :=
  ⟨derived_number_is_binary32_value 0x3E200000 (by decide) (by decide),
    documented_run_0_15625.2.2.2, documented_run_150_75.2, documented_run_minus_96_125.2⟩

/-! ## Denormal and normal exponents (C7, C8) -/

/-- C7: for every 32-bit pattern whose exponent field is all zero and whose
fraction is not zero, whatever the sign bit, `print_float_details` returns on
the Denormal path with `implicit_bit` 0 and `exponent` -126. -/
theorem denormal_implicit_bit_and_exponent (bits : Nat) (_h : bits < 2 ^ 32)
    (he : bits / 2 ^ 23 % 2 ^ 8 = 0) (_hf : bits % 2 ^ 23 ≠ 0) :
    ∃ d, print_float_details bits = some d ∧ d.cls = FloatClass.Denormal ∧
      d.implicit_bit = 0 ∧ d.exponent = -126 := by
  obtain ⟨d, hd⟩ := print_float_details_isSome bits
  have hc := print_float_details_cls bits
  have hib := print_float_details_implicit_bit bits
  have hex := print_float_details_exponent bits
  rw [hd] at hc hib hex
  simp only [Option.map_some', Option.some.injEq, he, if_true] at hc hib hex
  refine ⟨d, hd, ?_, hib, hex⟩
  rw [hc]
  rfl

theorem denormal_implicit_bit_and_exponent_witness :
    ∃ d, print_float_details 0x80000001 = some d ∧ d.cls = FloatClass.Denormal ∧
      d.implicit_bit = 0 ∧ d.exponent = -126 :=
  denormal_implicit_bit_and_exponent 0x80000001 (by decide) (by decide) (by decide)

/-- C8: for every 32-bit pattern whose raw exponent `e` is in 1..254,
`print_float_details` returns on the Normal path with `implicit_bit` 1 and
`exponent` equal to `e - 127` as a signed integer, between -126 and 127; that
integer is the conversion to `int` of the unsigned difference
`exponent_bits - EXPONENT_OFFSET`, which for `e < 127` has wrapped around to
`2^32 - 127 + e`. -/
theorem normal_implicit_bit_and_exponent (bits : Nat) (_h : bits < 2 ^ 32)
    (he1 : 1 ≤ bits / 2 ^ 23 % 2 ^ 8) (he2 : bits / 2 ^ 23 % 2 ^ 8 ≤ 254) :
    ∃ d, print_float_details bits = some d ∧ d.cls = FloatClass.Normal ∧
      d.implicit_bit = 1 ∧
      d.exponent_bits = bits / 2 ^ 23 % 2 ^ 8 ∧
      d.exponent = (d.exponent_bits : Int) - 127 ∧
      -126 ≤ d.exponent ∧ d.exponent ≤ 127 ∧
      d.exponent = toInt32 (sub32 d.exponent_bits EXPONENT_OFFSET) ∧
      (d.exponent_bits < 127 →
        sub32 d.exponent_bits EXPONENT_OFFSET = 2 ^ 32 - 127 + d.exponent_bits) := by
  obtain ⟨d, hd⟩ := print_float_details_isSome bits
  have hc := print_float_details_cls bits
  have hib := print_float_details_implicit_bit bits
  have heb := print_float_details_exponent_bits bits
  have hex := print_float_details_exponent bits
  rw [hd] at hc hib heb hex
  have hne0 : ¬ bits / 2 ^ 23 % 2 ^ 8 = 0 := by omega
  have hne255 : ¬ bits / 2 ^ 23 % 2 ^ 8 = 255 := by omega
  simp only [Option.map_some', Option.some.injEq, if_neg hne0, if_neg hne255] at hc hib heb hex
  have hlt : d.exponent_bits < 256 := by omega
  refine ⟨d, hd, hc, hib, heb, ?_, ?_, ?_, ?_, ?_⟩
  · rw [hex, heb]
  · rw [hex]; omega
  · rw [hex]; omega
  · rw [toInt32_sub32_offset _ hlt, hex, heb]
  · intro hsmall
    simp only [sub32, EXPONENT_OFFSET]
    omega

theorem normal_implicit_bit_and_exponent_witness :
    ∃ d, print_float_details 0x3E200000 = some d ∧ d.cls = FloatClass.Normal ∧
      d.implicit_bit = 1 ∧
      d.exponent_bits = 0x3E200000 / 2 ^ 23 % 2 ^ 8 ∧
      d.exponent = (d.exponent_bits : Int) - 127 ∧
      -126 ≤ d.exponent ∧ d.exponent ≤ 127 ∧
      d.exponent = toInt32 (sub32 d.exponent_bits EXPONENT_OFFSET) ∧
      (d.exponent_bits < 127 →
        sub32 d.exponent_bits EXPONENT_OFFSET = 2 ^ 32 - 127 + d.exponent_bits) :=
  normal_implicit_bit_and_exponent 0x3E200000 (by decide) (by decide) (by decide)

/-! ## Infinity and NaN (C9) -/

/-- C9: for every 32-bit pattern with raw exponent 255, `print_float_details`
returns and its text is the sign-bit line, the sign-symbol line, the raw
exponent as 11111111 binary and 255 decimal, and one final line: `number = +inf`
when the fraction is 0 and the sign bit is 0, `number = -inf` when the fraction
is 0 and the sign bit is 1, `number = NaN` when the fraction is not 0. Nothing
else is printed, and no significand, power or product is computed. -/
theorem special_values_text (bits : Nat) (_h : bits < 2 ^ 32)
    (he : bits / 2 ^ 23 % 2 ^ 8 = 255) :
    ∃ d, print_float_details bits = some d ∧
      d.sign_bit = bits / 2 ^ 31 % 2 ∧ d.fraction_bits = bits % 2 ^ 23 ∧
      d.out = text "sign bit = " ++ text (if d.sign_bit = 1 then "1" else "0") ++ text "\n"
        ++ text "sign = " ++ text (if d.sign_bit = 1 then "-" else "+") ++ text "\n\n"
        ++ text "raw exponent    = 11111111 binary\n"
        ++ text "                = 255 decimal\n"
        ++ text (if d.fraction_bits = 0 then
                  (if d.sign_bit = 1 then "number = -inf\n\n" else "number = +inf\n\n")
                else "number = NaN\n\n") ∧
      d.fraction = none ∧ d.power = none ∧ d.number = none := by
  obtain ⟨d, hd⟩ := print_float_details_isSome bits
  have hsb := print_float_details_sign_bit bits
  have hfb := print_float_details_fraction_bits bits
  have hout := print_float_details_out_special bits he
  have hfr := print_float_details_fraction bits
  have hpw := print_float_details_power bits
  have hnu := print_float_details_number bits
  rw [hd] at hsb hfb hout hfr hpw hnu
  simp only [Option.map_some', Option.some.injEq, he, if_true] at hsb hfb hout hfr hpw hnu
  refine ⟨d, hd, hsb, hfb, ?_, hfr, hpw, hnu⟩
  rw [hout, hsb, hfb]
  split_ifs <;> rfl

theorem special_values_text_witness :
    (∃ d, print_float_details 0x7F800000 = some d ∧
      d.sign_bit = 0x7F800000 / 2 ^ 31 % 2 ∧ d.fraction_bits = 0x7F800000 % 2 ^ 23 ∧
      d.out = text "sign bit = " ++ text (if d.sign_bit = 1 then "1" else "0") ++ text "\n"
        ++ text "sign = " ++ text (if d.sign_bit = 1 then "-" else "+") ++ text "\n\n"
        ++ text "raw exponent    = 11111111 binary\n"
        ++ text "                = 255 decimal\n"
        ++ text (if d.fraction_bits = 0 then
                  (if d.sign_bit = 1 then "number = -inf\n\n" else "number = +inf\n\n")
                else "number = NaN\n\n") ∧
      d.fraction = none ∧ d.power = none ∧ d.number = none) ∧
    (convert_bitstring_to_uint32 "01111111100000000000000000000000".toList).bind
        (fun bits => (print_float_details bits).map Details.out)
      = some (text ("sign bit = 0\nsign = +\n\nraw exponent    = 11111111 binary\n"
          ++ "                = 255 decimal\nnumber = +inf\n\n")) ∧
    (convert_bitstring_to_uint32 "01111111110000000000000000000000".toList).bind
        (fun bits => (print_float_details bits).map Details.out)
      = some (text ("sign bit = 0\nsign = +\n\nraw exponent    = 11111111 binary\n"
          ++ "                = 255 decimal\nnumber = NaN\n\n")) :=
  ⟨special_values_text 0x7F800000 (by decide) (by decide), by decide, by decide⟩

/-! ## The all-zero pattern (C10) -/

/-- C10: on the all-zero pattern `print_float_details` returns on the Denormal
path, with `implicit_bit` 0 and `exponent` -126; its significand
`sign_value * (0 + 0 / 2^23)` is 0 and the product with `exp2(-126)` is 0. -/
theorem zero_pattern_is_denormal_zero :
    ∃ d, print_float_details 0 = some d ∧ d.cls = FloatClass.Denormal ∧
      d.sign_bit = 0 ∧ d.exponent_bits = 0 ∧ d.fraction_bits = 0 ∧
      d.implicit_bit = 0 ∧ d.exponent = -126 ∧
      d.fraction = some ((d.sign_value : ℚ) * ((0 : ℚ) + (0 : ℚ) / 2 ^ 23)) ∧
      d.fraction = some 0 ∧
      d.power = some ((2 : ℚ) ^ (-126 : Int)) ∧
      d.number = some 0 := by
  obtain ⟨d, hd⟩ := print_float_details_isSome 0
  have hc := print_float_details_cls 0
  have hsb := print_float_details_sign_bit 0
  have heb := print_float_details_exponent_bits 0
  have hfb := print_float_details_fraction_bits 0
  have hib := print_float_details_implicit_bit 0
  have hex := print_float_details_exponent 0
  have hfr := print_float_details_fraction 0
  have hpw := print_float_details_power 0
  have hnu := print_float_details_number 0
  rw [hd] at hc hsb heb hfb hib hex hfr hpw hnu
  norm_num at hc hsb heb hfb hib hex hfr hpw hnu
  refine ⟨d, hd, hc, hsb, heb, hfb, hib, hex, ?_, hfr, ?_, hnu⟩
  · rw [hfr]; norm_num
  · rw [hpw]; rfl

/-! ## The `actual exponent` block (C15) -/

theorem toInt32_of_lt (x : Nat) (hx : x < 2 ^ 31) : toInt32 x = (x : Int) := by
  simp only [toInt32]
  have h1 : x % 2 ^ 32 = x := Nat.mod_eq_of_lt (by omega)
  rw [h1, if_pos hx]

/-- The whole text printed on the path for a raw exponent other than 255. -/
theorem print_float_details_out_number (bits : Nat) (he : bits / 2 ^ 23 % 2 ^ 8 ≠ 255) :
    (print_float_details bits).map Details.out
      = some (text "sign bit = " ++ fmt_d ((bits / 2 ^ 31 % 2 : Nat) : Int) ++ text "\n"
          ++ text "sign = " ++ fmt_c (if bits / 2 ^ 31 % 2 = 1 then '-' else '+') ++ text "\n\n"
          ++ text "raw exponent    = "
          ++ (List.range 8).map
              (fun k => OutItem.ch (if bits / 2 ^ (30 - k) % 2 = 1 then '1' else '0'))
          ++ text " binary\n"
          ++ text "                = " ++ fmt_d ((bits / 2 ^ 23 % 2 ^ 8 : Nat) : Int)
          ++ text " decimal\n"
          ++ text "actual exponent = " ++ fmt_d ((bits / 2 ^ 23 % 2 ^ 8 : Nat) : Int)
          ++ text " - exponent_bias\n"
          ++ text "                = " ++ fmt_d ((bits / 2 ^ 23 % 2 ^ 8 : Nat) : Int) ++ text " - "
            ++ fmt_d 127 ++ text "\n"
          ++ text "                = "
            ++ fmt_d (if bits / 2 ^ 23 % 2 ^ 8 = 0 then -126
                      else ((bits / 2 ^ 23 % 2 ^ 8 : Nat) : Int) - 127)
            ++ text "\n\n"
          ++ text "number = " ++ fmt_c (if bits / 2 ^ 31 % 2 = 1 then '-' else '+')
            ++ fmt_d (if bits / 2 ^ 23 % 2 ^ 8 = 0 then 0 else 1) ++ text "."
            ++ (List.range 23).map
                (fun k => OutItem.ch (if bits / 2 ^ (22 - k) % 2 = 1 then '1' else '0'))
            ++ text " binary * 2**"
            ++ fmt_d (if bits / 2 ^ 23 % 2 ^ 8 = 0 then -126
                      else ((bits / 2 ^ 23 % 2 ^ 8 : Nat) : Int) - 127)
            ++ text "\n"
          ++ text "       = "
            ++ fmt_g ((((if bits / 2 ^ 23 % 2 ^ 8 = 0 then 0 else 1 : Int) : ℚ)
                        + ((bits % 2 ^ 23 : Nat) : ℚ) / ((2 ^ 23 : Nat) : ℚ))
                      * ((if bits / 2 ^ 31 % 2 = 1 then -1 else 1 : Int) : ℚ))
            ++ text " decimal * 2**"
            ++ fmt_d (if bits / 2 ^ 23 % 2 ^ 8 = 0 then -126
                      else ((bits / 2 ^ 23 % 2 ^ 8 : Nat) : Int) - 127)
            ++ text "\n"
          ++ text "       = "
            ++ fmt_g ((((if bits / 2 ^ 23 % 2 ^ 8 = 0 then 0 else 1 : Int) : ℚ)
                        + ((bits % 2 ^ 23 : Nat) : ℚ) / ((2 ^ 23 : Nat) : ℚ))
                      * ((if bits / 2 ^ 31 % 2 = 1 then -1 else 1 : Int) : ℚ))
            ++ text " * "
            ++ fmt_g (exp2 (if bits / 2 ^ 23 % 2 ^ 8 = 0 then -126
                            else ((bits / 2 ^ 23 % 2 ^ 8 : Nat) : Int) - 127))
            ++ text "\n"
          ++ text "       = "
            ++ fmt_g ((((if bits / 2 ^ 23 % 2 ^ 8 = 0 then 0 else 1 : Int) : ℚ)
                        + ((bits % 2 ^ 23 : Nat) : ℚ) / ((2 ^ 23 : Nat) : ℚ))
                      * ((if bits / 2 ^ 31 % 2 = 1 then -1 else 1 : Int) : ℚ)
                      * exp2 (if bits / 2 ^ 23 % 2 ^ 8 = 0 then -126
                              else ((bits / 2 ^ 23 % 2 ^ 8 : Nat) : Int) - 127))
            ++ text "\n\n") := by
  have hs : bits / 2 ^ 31 % 2 < 2 ^ 31 := by
    have : bits / 2 ^ 31 % 2 < 2 := Nat.mod_lt _ (by norm_num)
    omega
  have he8 : bits / 2 ^ 23 % 2 ^ 8 < 256 := Nat.mod_lt _ (by norm_num)
  have he31 : bits / 2 ^ 23 % 2 ^ 8 < 2 ^ 31 := by omega
  simp only [print_float_details, print_bit_range_exponent, print_bit_range_fraction,
    shl32_fraction_size, Option.bind_eq_bind, Option.some_bind, Option.pure_def]
  simp only [SIGN_BIT, EXPONENT_HIGH_BIT, EXPONENT_LOW_BIT, FRACTION_HIGH_BIT, FRACTION_LOW_BIT,
    EXPONENT_INF_NAN, extract_bit_range_sign, extract_bit_range_exponent,
    extract_bit_range_fraction, Option.some_bind]
  simp only [toInt32_sub32_offset _ he8, toInt32_of_lt _ hs, toInt32_of_lt _ he31, if_neg he]
  simp only [EXPONENT_OFFSET]
  by_cases h0 : bits / 2 ^ 23 % 2 ^ 8 = 0
  · simp only [h0, if_true, Option.map_some', List.append_assoc]
    norm_num
  · simp only [if_neg h0, Option.map_some', List.append_assoc]
    norm_num

set_option maxRecDepth 100000 in
/-- C15: on the all-zero pattern, a Denormal (the bits of the argument 0), the
`actual exponent` block of `print_float_details` reads `0 - exponent_bias`,
then `0 - 127`, then `-126`, while `0 - 127` is -127: the integer of the last
line is not the value of the expression printed before it. -/
theorem denormal_exponent_block_inconsistent :
    (print_float_details 0).map Details.out
      = some (text ("sign bit = 0\nsign = +\n\n"
            ++ "raw exponent    = 00000000 binary\n"
            ++ "                = 0 decimal\n"
            ++ "actual exponent = 0 - exponent_bias\n"
            ++ "                = 0 - 127\n"
            ++ "                = -126\n\n"
            ++ "number = +0.00000000000000000000000 binary * 2**-126\n"
            ++ "       = ")
          ++ fmt_g 0 ++ text " decimal * 2**-126\n       = "
          ++ fmt_g 0 ++ text " * " ++ fmt_g (exp2 (-126)) ++ text "\n       = "
          ++ fmt_g 0 ++ text "\n\n") ∧
      (print_float_details 0).map Details.exponent = some (-126) ∧
      (0 : Int) - 127 ≠ -126 := by
  refine ⟨?_, ?_, by decide⟩
  · rw [print_float_details_out_number 0 (by decide)]
    norm_num
    rfl
  · rw [print_float_details_exponent]
    rfl

/-! ## The characters of `print_bit_range` (C11) -/

/-- The characters of `print_bit_range`, as a list of characters. -/
theorem print_bit_range_chars (value : Nat) (high low : Nat) (hle : low ≤ high)
    (hhigh : high ≤ 31) :
    print_bit_range value (high : Int) (low : Int)
      = some (((List.range (high - low + 1)).map
          (fun k => if value.testBit (high - k) then '1' else '0')).map OutItem.ch) := by
  rw [print_bit_range_eq value high low hle hhigh, List.map_map]
  congr 1
  apply List.map_congr_left
  intro k _
  simp only [Function.comp, Nat.testBit_to_div_mod, decide_eq_true_eq]

/-- C11: for every 32-bit value and every `0 ≤ low ≤ high ≤ 31`,
`print_bit_range(value, high, low)` returns having printed exactly
`high - low + 1` characters, each the digit 0 or 1, the `k`-th of them (from 0)
being 1 iff bit `high - k` of the value is set; the exponent field is printed
as 8 characters, the fraction field as 23 and the full pattern as 32. -/
theorem print_bit_range_characters (value : Nat) (high low : Nat) (_hv : value < 2 ^ 32)
    (hle : low ≤ high) (hhigh : high ≤ 31) :
    (∃ s : List Char, print_bit_range value (high : Int) (low : Int) = some (s.map OutItem.ch) ∧
      s.length = high - low + 1 ∧ (∀ c ∈ s, c = '0' ∨ c = '1') ∧
      ∀ k, k < high - low + 1 →
        (s[k]? = some '1' ↔ value.testBit (high - k) = true) ∧
        (s[k]? = some '0' ↔ value.testBit (high - k) = false)) ∧
    (∃ e f a : List Char,
      print_bit_range value EXPONENT_HIGH_BIT EXPONENT_LOW_BIT = some (e.map OutItem.ch) ∧
      e.length = 8 ∧
      print_bit_range value FRACTION_HIGH_BIT FRACTION_LOW_BIT = some (f.map OutItem.ch) ∧
      f.length = 23 ∧
      print_bit_range value (8 * 4 - 1) 0 = some (a.map OutItem.ch) ∧ a.length = 32) := by
  refine ⟨⟨_, print_bit_range_chars value high low hle hhigh, ?_, ?_, ?_⟩,
    ⟨_, _, _, print_bit_range_chars value 30 23 (by norm_num) (by norm_num), ?_,
      print_bit_range_chars value 22 0 (by norm_num) (by norm_num), ?_,
      print_bit_range_chars value 31 0 (by norm_num) (by norm_num), ?_⟩⟩
  · simp only [List.length_map, List.length_range]
  · intro c hc
    simp only [List.mem_map, List.mem_range] at hc
    obtain ⟨k, _, hk⟩ := hc
    rw [← hk]
    split_ifs
    · right; rfl
    · left; rfl
  · intro k hk
    have hget : ((List.range (high - low + 1)).map
        (fun k => if value.testBit (high - k) then '1' else '0'))[k]?
        = some (if value.testBit (high - k) then '1' else '0') := by
      rw [List.getElem?_map, List.getElem?_range hk]
      rfl
    rw [hget]
    cases hbit : value.testBit (high - k) <;> simp
  · simp only [List.length_map, List.length_range]
  · simp only [List.length_map, List.length_range]
  · simp only [List.length_map, List.length_range]

theorem print_bit_range_characters_witness :
    (∃ s : List Char, print_bit_range 0x3E200000 ((30 : Nat) : Int) ((23 : Nat) : Int)
        = some (s.map OutItem.ch) ∧
      s.length = 30 - 23 + 1 ∧ (∀ c ∈ s, c = '0' ∨ c = '1') ∧
      ∀ k, k < 30 - 23 + 1 →
        (s[k]? = some '1' ↔ Nat.testBit 0x3E200000 (30 - k) = true) ∧
        (s[k]? = some '0' ↔ Nat.testBit 0x3E200000 (30 - k) = false)) ∧
    (∃ e f a : List Char,
      print_bit_range 0x3E200000 EXPONENT_HIGH_BIT EXPONENT_LOW_BIT = some (e.map OutItem.ch) ∧
      e.length = 8 ∧
      print_bit_range 0x3E200000 FRACTION_HIGH_BIT FRACTION_LOW_BIT = some (f.map OutItem.ch) ∧
      f.length = 23 ∧
      print_bit_range 0x3E200000 (8 * 4 - 1) 0 = some (a.map OutItem.ch) ∧ a.length = 32) :=
  print_bit_range_characters 0x3E200000 30 23 (by decide) (by decide) (by decide)

/-! ## The output of `display_float` (C12) -/

set_option maxRecDepth 100000 in
/-- The documented run on the argument inf, whose `float` has the bits
`0x7F800000`: banner, full pattern, grouped fields, details. -/
theorem documented_run_inf :
    (display_float (fun _ => 0x7F800000) "inf".toList).map Display.out
      = some (text ("\ninf is represented as a float (IEEE-754 single-precision) by these bits:\n\n"
          ++ "01111111100000000000000000000000\n\n"
          ++ "sign | exponent | fraction\n"
          ++ "   0 | 11111111 | 00000000000000000000000\n\n"
          ++ "sign bit = 0\nsign = +\n\n"
          ++ "raw exponent    = 11111111 binary\n"
          ++ "                = 255 decimal\n"
          ++ "number = +inf\n\n")) := by
  decide

/-- C12: `display_float` returns on every token. When it takes the bit-string
branch, its output is exactly the output of `print_float_details` on the
decoded bits. Otherwise its output is the banner line naming the token, then
the full 32-bit pattern, then the grouped display of the three fields, then
the output of `print_float_details` on the bits of the parsed `float`. -/
theorem display_float_output (float_bits : List Char → Nat) (argument : List Char) :
    ∃ d, display_float float_bits argument = some d ∧
      (d.bit_pattern = true →
        ∃ bits det, convert_bitstring_to_uint32 argument = some bits ∧
          print_float_details bits = some det ∧ d.bits = bits ∧ d.out = det.out) ∧
      (d.bit_pattern = false →
        ∃ full sign exponent fraction det,
          print_bit_range (float_bits argument) 31 0 = some full ∧
          print_bit_range (float_bits argument) SIGN_BIT SIGN_BIT = some sign ∧
          print_bit_range (float_bits argument) EXPONENT_HIGH_BIT EXPONENT_LOW_BIT
            = some exponent ∧
          print_bit_range (float_bits argument) FRACTION_HIGH_BIT FRACTION_LOW_BIT
            = some fraction ∧
          print_float_details (float_bits argument) = some det ∧
          d.bits = float_bits argument ∧
          d.out =
            (text "\n" ++ argument.map OutItem.ch
              ++ text " is represented as a float (IEEE-754 single-precision) by these bits:\n\n")
            ++ (full ++ text "\n\n")
            ++ (text "sign | exponent | fraction\n" ++ text "   " ++ sign ++ text " | "
                ++ exponent ++ text " | " ++ fraction ++ text "\n\n")
            ++ det.out) := by
  by_cases hcond : strlen argument > N_BITS - 4 ∧ strspn argument "01".toList = N_BITS
  · have hs : ∀ i, i < 32 → ∃ c, argument[i]? = some c ∧ c ≠ NUL := by
      intro i hi
      rcases ((strspn_eq_32_iff argument).1 hcond.2).1 i hi with h0 | h1
      · exact ⟨'0', h0, by decide⟩
      · exact ⟨'1', h1, by decide⟩
    obtain ⟨r, hr, _, _⟩ := convert_bitstring_to_uint32_spec argument hs
    obtain ⟨det, hdet⟩ := print_float_details_isSome r
    refine ⟨{ bit_pattern := true, bits := r, out := det.out }, ?_, ?_, ?_⟩
    · simp only [display_float, if_pos hcond, hr, hdet, Option.bind_eq_bind, Option.some_bind,
        Option.pure_def]
    · intro _
      exact ⟨r, det, hr, hdet, rfl, rfl⟩
    · intro h
      exact Bool.noConfusion h
  · have hall0 := print_bit_range_eq (float_bits argument) 31 0 (by norm_num) (by norm_num)
    have hsign0 := print_bit_range_eq (float_bits argument) 31 31 (by norm_num) (by norm_num)
    simp only [Nat.cast_ofNat, Nat.cast_zero] at hall0 hsign0
    obtain ⟨full, hall⟩ : ∃ l, print_bit_range (float_bits argument) 31 0 = some l :=
      ⟨_, hall0⟩
    obtain ⟨sign, hsign⟩ : ∃ l, print_bit_range (float_bits argument) 31 31 = some l :=
      ⟨_, hsign0⟩
    obtain ⟨exponent, hexp⟩ :
        ∃ l, print_bit_range (float_bits argument) EXPONENT_HIGH_BIT EXPONENT_LOW_BIT = some l :=
      ⟨_, print_bit_range_exponent (float_bits argument)⟩
    obtain ⟨fraction, hfrac⟩ :
        ∃ l, print_bit_range (float_bits argument) FRACTION_HIGH_BIT FRACTION_LOW_BIT = some l :=
      ⟨_, print_bit_range_fraction (float_bits argument)⟩
    obtain ⟨det, hdet⟩ := print_float_details_isSome (float_bits argument)
    have h31 : ((8 : Int) * 4 - 1) = 31 := by norm_num
    refine ⟨{ bit_pattern := false, bits := float_bits argument,
              out := text "\n" ++ argument.map OutItem.ch
                ++ text " is represented as a float (IEEE-754 single-precision) by these bits:\n\n"
                ++ (full ++ text "\n\n" ++ text "sign | exponent | fraction\n" ++ text "   "
                    ++ sign ++ text " | " ++ exponent ++ text " | " ++ fraction ++ text "\n\n")
                ++ det.out }, ?_, ?_, ?_⟩
    · simp only [display_float, if_neg hcond, print_float_bits, h31, hall, SIGN_BIT, hsign]
      simp only [hexp, hfrac, hdet, Option.bind_eq_bind, Option.some_bind, Option.pure_def]
    · intro h
      exact Bool.noConfusion h
    · intro _
      refine ⟨full, sign, exponent, fraction, det, hall, hsign, hexp, hfrac, hdet, rfl, ?_⟩
      simp only [List.append_assoc]

/-! ## The reads of the decoder (C16) -/

/-- Recording the reads does not change the bits returned. -/
theorem convert_bitstring_loop_reads_fst (s : List Char) :
    ∀ (fuel i bits : Nat) (reads : List Nat),
      (convert_bitstring_loop_reads s fuel i bits reads).map Prod.fst
        = convert_bitstring_loop s fuel i bits := by
  intro fuel
  induction fuel with
  | zero => intro i bits reads; rfl
  | succ fuel ih =>
    intro i bits reads
    simp only [convert_bitstring_loop_reads, convert_bitstring_loop]
    by_cases hlt : i < N_BITS
    · simp only [if_pos hlt, Option.bind_eq_bind, Option.pure_def]
      cases hc : str_at s i with
      | none => rfl
      | some c =>
        simp only [Option.some_bind]
        by_cases hnul : c ≠ NUL
        · simp only [if_pos hnul]
          cases ha : str_at s (N_BITS - 1 - i) with
          | none => rfl
          | some a =>
            simp only [Option.some_bind]
            cases hsh : shl32 (if a ≠ '0' then 1 else 0) (i : Int) with
            | none => rfl
            | some shifted =>
              simp only [Option.some_bind]
              exact ih (i + 1) (bits ||| shifted) (reads ++ [N_BITS - 1 - i])
        · simp only [if_neg hnul, Option.map_some']
    · simp only [if_neg hlt, Option.pure_def, Option.map_some']

/-- On a string whose first 32 characters are there, the loop started at `i`
runs `32 - i` more iterations and reads the indices `31 - i`, ..., `0`. -/
theorem convert_bitstring_loop_reads_spec (s : List Char)
    (hs : ∀ i, i < 32 → ∃ c, s[i]? = some c ∧ c ≠ NUL) :
    ∀ (fuel i bits : Nat) (reads : List Nat), i ≤ 32 → 33 ≤ fuel + i →
      ∃ r, convert_bitstring_loop_reads s fuel i bits reads
        = some (r, reads ++ (List.range (32 - i)).map (fun k => 31 - i - k)) := by
  intro fuel
  induction fuel with
  | zero => intro i bits reads hi hfuel; omega
  | succ fuel ih =>
    intro i bits reads hi hfuel
    by_cases hlt : i < 32
    · obtain ⟨c, hc, hcn⟩ := hs i hlt
      obtain ⟨a, ha, _⟩ := hs (31 - i) (by omega)
      have hsh := shl32_bit (decide (a ≠ '0')) i hlt
      simp only [decide_eq_true_eq] at hsh
      obtain ⟨r, hr⟩ := ih (i + 1) (bits ||| (if a ≠ '0' then 2 ^ i else 0))
        (reads ++ [31 - i]) (by omega) (by omega)
      refine ⟨r, ?_⟩
      simp only [convert_bitstring_loop_reads, N_BITS, if_pos hlt, str_at_of_getElem? s i c hc,
        str_at_of_getElem? s (31 - i) a ha, Option.bind_eq_bind, Option.some_bind, if_pos hcn,
        Nat.add_one_sub_one, hsh]
      rw [hr]
      have hsplit : 32 - i = (32 - (i + 1)) + 1 := by omega
      rw [hsplit, List.range_succ_eq_map]
      simp only [List.map_cons, List.map_map, List.append_assoc, List.singleton_append,
        Nat.sub_zero]
      congr 4
      apply List.map_congr_left
      intro k _
      simp only [Function.comp, Nat.succ_eq_add_one]
      omega
    · have hi32 : 32 - i = 0 := by omega
      refine ⟨bits, ?_⟩
      simp only [convert_bitstring_loop_reads, N_BITS, if_neg hlt, Option.pure_def, hi32,
        List.range_zero, List.map_nil, List.append_nil]

/-- C16: for every token that the classifier of `display_float` sends to
`convert_bitstring_to_uint32`, the token has at least 32 characters, the loop
of the decoder runs exactly 32 iterations, and the indices it reads, 31 down to
0, all lie inside the token, before its terminator; the decoder returns. -/
theorem decoder_reads_inside_token (argument : List Char)
    (hroute : strlen argument > N_BITS - 4 ∧ strspn argument "01".toList = N_BITS) :
    (∀ float_bits : List Char → Nat,
      ∃ d, display_float float_bits argument = some d ∧ d.bit_pattern = true) ∧
    32 ≤ strlen argument ∧
    ∃ r reads, convert_bitstring_to_uint32_reads argument = some (r, reads) ∧
      convert_bitstring_to_uint32 argument = some r ∧
      reads = (List.range 32).map (fun i => 31 - i) ∧ reads.length = 32 ∧
      ∀ j ∈ reads, j < strlen argument ∧ ∃ c, str_at argument j = some c ∧ c ≠ NUL := by
  have hspn : strspn argument "01".toList = 32 := hroute.2
  have hs : ∀ i, i < 32 → ∃ c, argument[i]? = some c ∧ c ≠ NUL := by
    intro i hi
    rcases ((strspn_eq_32_iff argument).1 hspn).1 i hi with h0 | h1
    · exact ⟨'0', h0, by decide⟩
    · exact ⟨'1', h1, by decide⟩
  have hlen : 32 ≤ argument.length := length_ge_of_strspn argument hspn
  obtain ⟨r, hr⟩ := convert_bitstring_loop_reads_spec argument hs 33 0 0 []
    (by norm_num) (by norm_num)
  simp only [List.nil_append, Nat.sub_zero] at hr
  have hfst := convert_bitstring_loop_reads_fst argument 33 0 0 []
  rw [hr] at hfst
  refine ⟨?_, hlen, r, _, hr, hfst.symm, rfl, ?_, ?_⟩
  · intro float_bits
    obtain ⟨d, hd, hiff⟩ := display_float_spec float_bits argument
    exact ⟨d, hd, hiff.2 hspn⟩
  · simp only [List.length_map, List.length_range]
  · intro j hj
    simp only [List.mem_map, List.mem_range] at hj
    obtain ⟨k, hk, hkj⟩ := hj
    have hj32 : j < 32 := by omega
    obtain ⟨c, hc, hcn⟩ := hs j hj32
    refine ⟨?_, c, str_at_of_getElem? argument j c hc, hcn⟩
    simp only [strlen]
    omega

theorem decoder_reads_inside_token_witness :
    (∀ float_bits : List Char → Nat,
      ∃ d, display_float float_bits "00111101110011001100110011001101".toList = some d ∧
        d.bit_pattern = true) ∧
    32 ≤ strlen "00111101110011001100110011001101".toList ∧
    ∃ r reads,
      convert_bitstring_to_uint32_reads "00111101110011001100110011001101".toList
        = some (r, reads) ∧
      convert_bitstring_to_uint32 "00111101110011001100110011001101".toList = some r ∧
      reads = (List.range 32).map (fun i => 31 - i) ∧ reads.length = 32 ∧
      ∀ j ∈ reads, j < strlen "00111101110011001100110011001101".toList ∧
        ∃ c, str_at "00111101110011001100110011001101".toList j = some c ∧ c ≠ NUL :=
  decoder_reads_inside_token "00111101110011001100110011001101".toList (by decide)

/-! ## Decoding what was printed (C17) -/

/-- C17: for every 32-bit value `v`, `print_bit_range(v, 31, 0)` prints 32
characters, and `convert_bitstring_to_uint32` on the string of these
characters returns `v`. -/
theorem decode_inverts_full_width_print (v : Nat) (hv : v < 2 ^ 32) :
    ∃ s : List Char, print_bit_range v 31 0 = some (s.map OutItem.ch) ∧ s.length = 32 ∧
      convert_bitstring_to_uint32 s = some v := by
  have hprint := print_bit_range_chars v 31 0 (by norm_num) (by norm_num)
  simp only [Nat.cast_ofNat, Nat.cast_zero, Nat.sub_zero, Nat.reduceAdd] at hprint
  have hget : ∀ i, i < 32 →
      ((List.range 32).map (fun k => if v.testBit (31 - k) then '1' else '0'))[i]?
        = some (if v.testBit (31 - i) then '1' else '0') := by
    intro i hi
    rw [List.getElem?_map, List.getElem?_range hi]
    rfl
  have hs : ∀ i, i < 32 → ∃ c,
      ((List.range 32).map (fun k => if v.testBit (31 - k) then '1' else '0'))[i]? = some c
        ∧ c ≠ NUL := by
    intro i hi
    refine ⟨_, hget i hi, ?_⟩
    split_ifs <;> decide
  obtain ⟨r, hr, _, hbits⟩ := convert_bitstring_to_uint32_spec _ hs
  have hrv : r = v := by
    apply Nat.eq_of_testBit_eq
    intro j
    rw [hbits j]
    by_cases hj : j < 32
    · have hidx : 31 - (31 - j) = j := by omega
      rw [hget (31 - j) (by omega), hidx]
      cases hbit : v.testBit j <;> simp [hj]
    · have hlt : v < 2 ^ j :=
        lt_of_lt_of_le hv (Nat.pow_le_pow_right (by norm_num) (by omega))
      rw [Nat.testBit_lt_two_pow hlt]
      simp [hj]
  refine ⟨_, hprint, ?_, ?_⟩
  · simp only [List.length_map, List.length_range]
  · rw [hr, hrv]

theorem decode_inverts_full_width_print_witness :
    ∃ s : List Char, print_bit_range 0xC2C04000 31 0 = some (s.map OutItem.ch) ∧
      s.length = 32 ∧ convert_bitstring_to_uint32 s = some 0xC2C04000 :=
  decode_inverts_full_width_print 0xC2C04000 (by decide)

/-! ## The length guard of the classifier (C18) -/

/-- C18: for every token, the condition
`strlen(argument) > N_BITS - 4 && strspn(argument, "01") == N_BITS` of
`display_float` holds exactly when `strspn(argument, "01") == N_BITS` alone
does, and `display_float` takes the bit-string branch exactly when the longest
prefix of the token made of the digits 0 and 1 has length 32. -/
theorem length_guard_redundant (argument : List Char) :
    ((strlen argument > N_BITS - 4 ∧ strspn argument "01".toList = N_BITS)
        ↔ strspn argument "01".toList = N_BITS) ∧
      (strspn argument "01".toList = N_BITS
        ↔ (argument.takeWhile (fun c => decide (c = '0' ∨ c = '1'))).length = 32) ∧
      ∀ float_bits : List Char → Nat,
        ∃ d, display_float float_bits argument = some d ∧
          (d.bit_pattern = true
            ↔ (argument.takeWhile (fun c => decide (c = '0' ∨ c = '1'))).length = 32) := by
  have hfun : (fun c => "01".toList.contains c) = (fun c => decide (c = '0' ∨ c = '1')) := by
    funext c
    rw [Bool.eq_iff_iff, contains_zero_one, decide_eq_true_eq]
  have hprefix : strspn argument "01".toList = N_BITS
      ↔ (argument.takeWhile (fun c => decide (c = '0' ∨ c = '1'))).length = 32 := by
    simp only [strspn, hfun, N_BITS]
  refine ⟨⟨fun h => h.2, fun h => ⟨?_, h⟩⟩, hprefix, ?_⟩
  · have hlen := length_ge_of_strspn argument h
    simp only [strlen, N_BITS]
    omega
  · intro float_bits
    obtain ⟨d, hd, hiff⟩ := display_float_spec float_bits argument
    exact ⟨d, hd, hiff.trans hprefix⟩

/-! ## The range of the signed significand (C19) -/

/-- C19: for every 32-bit pattern whose raw exponent is not 255,
`print_float_details` returns with its sign bit, raw exponent, fraction bits and
sign value those of the pattern, on the Normal path iff the raw exponent is in
1..254 and on the Denormal path iff it is 0. The `fraction` it computes is
`sign_value * (implicit_bit + fraction_bits / 2^23)`: for a Normal pattern this
is `±(1 + f/2^23)` with magnitude in [1, 2), for a Denormal pattern `±(0 +
f/2^23)` with magnitude in [0, 1), where `f` is the fraction field of the
pattern; the value is negative only when the sign bit of the pattern is 1. -/
theorem signed_significand_range (bits : Nat) (_h : bits < 2 ^ 32)
    (he : bits / 2 ^ 23 % 2 ^ 8 ≠ 255) :
    ∃ d significand, print_float_details bits = some d ∧
      d.fraction = some significand ∧
      significand
        = (d.sign_value : ℚ) * ((d.implicit_bit : ℚ) + (d.fraction_bits : ℚ) / 2 ^ 23) ∧
      (d.cls = FloatClass.Normal ∨ d.cls = FloatClass.Denormal) ∧
      (d.cls = FloatClass.Normal →
        d.implicit_bit = 1 ∧ 1 ≤ |significand| ∧ |significand| < 2) ∧
      (d.cls = FloatClass.Denormal →
        d.implicit_bit = 0 ∧ 0 ≤ |significand| ∧ |significand| < 1) ∧
      (significand < 0 → d.sign_bit = 1) ∧
      d.sign_bit = bits / 2 ^ 31 % 2 ∧
      d.exponent_bits = bits / 2 ^ 23 % 2 ^ 8 ∧
      d.fraction_bits = bits % 2 ^ 23 ∧
      d.sign_value = (if bits / 2 ^ 31 % 2 = 1 then -1 else 1) ∧
      (d.cls = FloatClass.Normal ↔ 1 ≤ bits / 2 ^ 23 % 2 ^ 8 ∧ bits / 2 ^ 23 % 2 ^ 8 ≤ 254) ∧
      (d.cls = FloatClass.Denormal ↔ bits / 2 ^ 23 % 2 ^ 8 = 0) ∧
      (1 ≤ bits / 2 ^ 23 % 2 ^ 8 →
        significand
            = (if bits / 2 ^ 31 % 2 = 1 then -1 else 1)
              * (1 + ((bits % 2 ^ 23 : Nat) : ℚ) / 2 ^ 23) ∧
          1 ≤ |significand| ∧ |significand| < 2) ∧
      (bits / 2 ^ 23 % 2 ^ 8 = 0 →
        significand
            = (if bits / 2 ^ 31 % 2 = 1 then -1 else 1)
              * (0 + ((bits % 2 ^ 23 : Nat) : ℚ) / 2 ^ 23) ∧
          0 ≤ |significand| ∧ |significand| < 1) ∧
      (significand < 0 → bits / 2 ^ 31 % 2 = 1) := by
  obtain ⟨d, hd⟩ := print_float_details_isSome bits
  have hc := print_float_details_cls bits
  have hsb := print_float_details_sign_bit bits
  have hsv := print_float_details_sign_value bits
  have hib := print_float_details_implicit_bit bits
  have hfb := print_float_details_fraction_bits bits
  have hfr := print_float_details_fraction bits
  have heb := print_float_details_exponent_bits bits
  rw [hd] at hc hsb hsv hib hfb hfr heb
  simp only [Option.map_some', Option.some.injEq, if_neg he] at hc hsb hsv hib hfb hfr heb
  have he8 : bits / 2 ^ 23 % 2 ^ 8 < 256 := Nat.mod_lt _ (by norm_num)
  have hf : bits % 2 ^ 23 < 2 ^ 23 := Nat.mod_lt _ (by norm_num)
  have hq0 : (0 : ℚ) ≤ ((bits % 2 ^ 23 : Nat) : ℚ) / ((2 ^ 23 : Nat) : ℚ) := by positivity
  have hq1 : ((bits % 2 ^ 23 : Nat) : ℚ) / ((2 ^ 23 : Nat) : ℚ) < 1 := by
    rw [div_lt_one (by positivity)]
    exact_mod_cast hf
  have hsign : bits / 2 ^ 31 % 2 = 0 ∨ bits / 2 ^ 31 % 2 = 1 := by omega
  have habs : ∀ x : ℚ, 0 ≤ x →
      |x * ((if bits / 2 ^ 31 % 2 = 1 then -1 else 1 : Int) : ℚ)| = x := by
    intro x hx
    rw [abs_mul, abs_of_nonneg hx]
    split_ifs <;> simp
  refine ⟨d, _, hd, hfr, ?_, ?_, ?_, ?_, ?_, hsb, heb, hfb, hsv, ?_, ?_, ?_, ?_, ?_⟩
  · rw [hsv, hib, hfb]
    push_cast
    ring
  · rw [hc]
    split_ifs
    · right; rfl
    · left; rfl
  · intro hnormal
    have hne0 : ¬ bits / 2 ^ 23 % 2 ^ 8 = 0 := by
      intro h0
      rw [hc, if_pos h0] at hnormal
      exact FloatClass.noConfusion hnormal
    rw [hib]
    simp only [if_neg hne0, true_and]
    rw [habs _ (by push_cast; linarith)]
    push_cast
    constructor <;> linarith
  · intro hdenormal
    have h0 : bits / 2 ^ 23 % 2 ^ 8 = 0 := by
      by_contra hne
      rw [hc, if_neg hne] at hdenormal
      exact FloatClass.noConfusion hdenormal
    rw [hib]
    simp only [if_pos h0, true_and]
    rw [habs _ (by push_cast; linarith)]
    push_cast
    constructor <;> linarith
  · intro hneg
    rw [hsb]
    rcases hsign with hs0 | hs1
    · exfalso
      have himp : (0 : ℚ) ≤ ((if bits / 2 ^ 23 % 2 ^ 8 = 0 then 0 else 1 : Int) : ℚ) := by
        split_ifs <;> simp
      have hnot : ¬ bits / 2 ^ 31 % 2 = 1 := by omega
      simp only [if_neg hnot, Int.cast_one, mul_one] at hneg
      linarith
    · exact hs1
  · rw [hc]
    split_ifs with h0
    · simp only [reduceCtorEq, false_iff]; omega
    · simp only [true_iff]; omega
  · rw [hc]
    split_ifs with h0
    · simp only [true_iff]; exact h0
    · simp only [reduceCtorEq, false_iff]; exact h0
  · intro hpos
    have hne0 : ¬ bits / 2 ^ 23 % 2 ^ 8 = 0 := by omega
    simp only [if_neg hne0]
    refine ⟨?_, ?_, ?_⟩
    · push_cast
      split_ifs <;> ring
    · rw [habs _ (by push_cast; linarith)]
      push_cast
      linarith
    · rw [habs _ (by push_cast; linarith)]
      push_cast
      linarith
  · intro h0
    simp only [if_pos h0]
    refine ⟨?_, ?_, ?_⟩
    · push_cast
      split_ifs <;> ring
    · rw [habs _ (by push_cast; linarith)]
      push_cast
      linarith
    · rw [habs _ (by push_cast; linarith)]
      push_cast
      linarith
  · intro hneg
    rcases hsign with hs0 | hs1
    · exfalso
      have himp : (0 : ℚ) ≤ ((if bits / 2 ^ 23 % 2 ^ 8 = 0 then 0 else 1 : Int) : ℚ) := by
        split_ifs <;> simp
      have hnot : ¬ bits / 2 ^ 31 % 2 = 1 := by omega
      simp only [if_neg hnot, Int.cast_one, mul_one] at hneg
      linarith
    · exact hs1

theorem signed_significand_range_witness :
    ∃ d significand, print_float_details 0xC2C04000 = some d ∧
      d.fraction = some significand ∧
      significand
        = (d.sign_value : ℚ) * ((d.implicit_bit : ℚ) + (d.fraction_bits : ℚ) / 2 ^ 23) ∧
      (d.cls = FloatClass.Normal ∨ d.cls = FloatClass.Denormal) ∧
      (d.cls = FloatClass.Normal →
        d.implicit_bit = 1 ∧ 1 ≤ |significand| ∧ |significand| < 2) ∧
      (d.cls = FloatClass.Denormal →
        d.implicit_bit = 0 ∧ 0 ≤ |significand| ∧ |significand| < 1) ∧
      (significand < 0 → d.sign_bit = 1) ∧
      d.sign_bit = 0xC2C04000 / 2 ^ 31 % 2 ∧
      d.exponent_bits = 0xC2C04000 / 2 ^ 23 % 2 ^ 8 ∧
      d.fraction_bits = 0xC2C04000 % 2 ^ 23 ∧
      d.sign_value = (if 0xC2C04000 / 2 ^ 31 % 2 = 1 then -1 else 1) ∧
      (d.cls = FloatClass.Normal ↔ 1 ≤ 0xC2C04000 / 2 ^ 23 % 2 ^ 8 ∧ 0xC2C04000 / 2 ^ 23 % 2 ^ 8 ≤ 254) ∧
      (d.cls = FloatClass.Denormal ↔ 0xC2C04000 / 2 ^ 23 % 2 ^ 8 = 0) ∧
      (1 ≤ 0xC2C04000 / 2 ^ 23 % 2 ^ 8 →
        significand
            = (if 0xC2C04000 / 2 ^ 31 % 2 = 1 then -1 else 1)
              * (1 + ((0xC2C04000 % 2 ^ 23 : Nat) : ℚ) / 2 ^ 23) ∧
          1 ≤ |significand| ∧ |significand| < 2) ∧
      (0xC2C04000 / 2 ^ 23 % 2 ^ 8 = 0 →
        significand
            = (if 0xC2C04000 / 2 ^ 31 % 2 = 1 then -1 else 1)
              * (0 + ((0xC2C04000 % 2 ^ 23 : Nat) : ℚ) / 2 ^ 23) ∧
          0 ≤ |significand| ∧ |significand| < 1) ∧
      (significand < 0 → 0xC2C04000 / 2 ^ 31 % 2 = 1) :=
  signed_significand_range 0xC2C04000 (by decide) (by decide)

end FloatExplain

namespace PrintHex

/-! ## Lemmas about `print_hex` -/

theorem hex_digit_lookup (d : Nat) (hd : d < 16) :
    FloatExplain.str_at "0123456789ABCDEF".toList d
      = some ("0123456789ABCDEF".toList.getD d FloatExplain.NUL) := by
  interval_cases d <;> rfl

theorem hex_digit_value_lookup (d : Nat) (hd : d < 16) :
    hex_digit_value ("0123456789ABCDEF".toList.getD d FloatExplain.NUL) = d := by
  interval_cases d <;> decide

theorem toInt32_small (x : Nat) (hx : x < 16) : FloatExplain.toInt32 x = (x : Int) := by
  simp only [FloatExplain.toInt32]
  have h1 : x % 2 ^ 32 = x := Nat.mod_eq_of_lt (by omega)
  rw [h1, if_pos (by omega)]

/-- The characters printed by the loop of `print_hex`: digit `i` first, then
digit `i - 1`, and so on, `count` of them. -/
theorem print_hex_loop_eq (n : Nat) :
    ∀ (count i : Nat), count ≤ i + 1 → i ≤ 7 →
      print_hex_loop n count (i : Int)
        = some ((List.range count).map (fun j => FloatExplain.OutItem.ch
            ("0123456789ABCDEF".toList.getD (n / 2 ^ (4 * (i - j)) % 16) FloatExplain.NUL))) := by
  intro count
  induction count with
  | zero => intro i _ _; rfl
  | succ count ih =>
    intro i hcount hi
    have hdig : n / 2 ^ (4 * i) % 16 < 16 := Nat.mod_lt _ (by norm_num)
    have hrest : print_hex_loop n count ((i : Int) - 1)
        = some ((List.range count).map (fun j => FloatExplain.OutItem.ch
            ("0123456789ABCDEF".toList.getD (n / 2 ^ (4 * (i - 1 - j)) % 16)
              FloatExplain.NUL))) := by
      cases count with
      | zero => rfl
      | succ m =>
        have hcast : ((i : Int) - 1) = ((i - 1 : Nat) : Int) := by omega
        rw [hcast]
        exact ih (i - 1) (by omega) (by omega)
    have hshift : FloatExplain.shr32 n (4 * (i : Int)) = some (n / 2 ^ (4 * i)) := by
      have hc : (4 * (i : Int)) = ((4 * i : Nat) : Int) := by omega
      simp only [FloatExplain.shr32, hc]
      rw [if_pos ⟨by omega, by omega⟩]
      simp only [Int.toNat_ofNat, Nat.shiftRight_eq_div_pow]
    have hmask : n / 2 ^ (4 * i) &&& 0xF = n / 2 ^ (4 * i) % 16 :=
      Nat.and_pow_two_sub_one_eq_mod _ 4
    simp only [print_hex_loop, hshift, hmask, toInt32_small _ hdig, hrest, Option.bind_eq_bind,
      Option.some_bind, Option.pure_def, Int.toNat_ofNat, hex_digit_lookup _ hdig]
    rw [if_pos (by omega)]
    rw [List.range_succ_eq_map]
    simp only [Option.some_bind, List.map_cons, List.map_map, Nat.sub_zero]
    congr 2
    apply List.map_congr_left
    intro k _
    simp only [Function.comp, Nat.succ_eq_add_one]
    rw [Nat.sub_sub, Nat.add_comm 1 k]

theorem print_hex_eq (n : Nat) :
    print_hex n = some (((List.range 8).map (fun k =>
        "0123456789ABCDEF".toList.getD (n / 2 ^ (4 * (7 - k)) % 16) FloatExplain.NUL)).map
          FloatExplain.OutItem.ch) := by
  have h := print_hex_loop_eq n 8 7 (by norm_num) (by norm_num)
  rw [List.map_map]
  simpa [print_hex] using h

/-! ## The digits of `print_hex` (C14) -/

/-- C14: for every 32-bit `n`, `print_hex(n)` returns having printed exactly 8
characters of the digit string, most significant first: the `k`-th from the
left is the digit `(n >> 4*(7-k)) & 0xF`, and the 8 characters read as a
base-16 numeral give `n`. -/
theorem print_hex_digits (n : Nat) (hn : n < 2 ^ 32) :
    ∃ s : List Char, print_hex n = some (s.map FloatExplain.OutItem.ch) ∧
      s.length = 8 ∧ (∀ c ∈ s, c ∈ "0123456789ABCDEF".toList) ∧
      (∀ k : Nat, k < 8 → ∃ shifted, FloatExplain.shr32 n (4 * (7 - (k : Int))) = some shifted ∧
        shifted &&& 0xF < 16 ∧
        s[k]? = "0123456789ABCDEF".toList[shifted &&& 0xF]?) ∧
      hex_numeral_value s = n := by
  have hget : ∀ k, k < 8 → ((List.range 8).map (fun k =>
      "0123456789ABCDEF".toList.getD (n / 2 ^ (4 * (7 - k)) % 16) FloatExplain.NUL))[k]?
      = some ("0123456789ABCDEF".toList.getD (n / 2 ^ (4 * (7 - k)) % 16) FloatExplain.NUL) := by
    intro k hk
    rw [List.getElem?_map, List.getElem?_range hk]
    rfl
  have hlook : ∀ d, d < 16 → "0123456789ABCDEF".toList[d]?
      = some ("0123456789ABCDEF".toList.getD d FloatExplain.NUL) := by
    intro d hd
    interval_cases d <;> rfl
  refine ⟨_, print_hex_eq n, ?_, ?_, ?_, ?_⟩
  · simp only [List.length_map, List.length_range]
  · intro c hc
    simp only [List.mem_map, List.mem_range] at hc
    obtain ⟨k, _, hk⟩ := hc
    have hdig : n / 2 ^ (4 * (7 - k)) % 16 < 16 := Nat.mod_lt _ (by norm_num)
    have hmem := List.getElem?_mem (hlook _ hdig)
    rw [hk] at hmem
    exact hmem
  · intro k hk
    have hdig : n / 2 ^ (4 * (7 - k)) % 16 < 16 := Nat.mod_lt _ (by norm_num)
    have hc : (4 * (7 - (k : Int))) = ((4 * (7 - k) : Nat) : Int) := by omega
    have hmask : n / 2 ^ (4 * (7 - k)) &&& 0xF = n / 2 ^ (4 * (7 - k)) % 16 :=
      Nat.and_pow_two_sub_one_eq_mod _ 4
    refine ⟨n / 2 ^ (4 * (7 - k)), ?_, ?_, ?_⟩
    · simp only [FloatExplain.shr32, hc]
      rw [if_pos ⟨by omega, by omega⟩]
      simp only [Int.toNat_ofNat, Nat.shiftRight_eq_div_pow]
    · rw [hmask]; exact hdig
    · rw [hmask, hget k hk, hlook _ hdig]
  · have h0 := hex_digit_value_lookup (n / 2 ^ 28 % 16) (Nat.mod_lt _ (by norm_num))
    have h1 := hex_digit_value_lookup (n / 2 ^ 24 % 16) (Nat.mod_lt _ (by norm_num))
    have h2 := hex_digit_value_lookup (n / 2 ^ 20 % 16) (Nat.mod_lt _ (by norm_num))
    have h3 := hex_digit_value_lookup (n / 2 ^ 16 % 16) (Nat.mod_lt _ (by norm_num))
    have h4 := hex_digit_value_lookup (n / 2 ^ 12 % 16) (Nat.mod_lt _ (by norm_num))
    have h5 := hex_digit_value_lookup (n / 2 ^ 8 % 16) (Nat.mod_lt _ (by norm_num))
    have h6 := hex_digit_value_lookup (n / 2 ^ 4 % 16) (Nat.mod_lt _ (by norm_num))
    have h7 := hex_digit_value_lookup (n / 2 ^ 0 % 16) (Nat.mod_lt _ (by norm_num))
    have hrange : List.range 8 = [0, 1, 2, 3, 4, 5, 6, 7] := by decide
    have hfold : ∀ c0 c1 c2 c3 c4 c5 c6 c7 : Char,
        hex_numeral_value [c0, c1, c2, c3, c4, c5, c6, c7]
          = 16 * (16 * (16 * (16 * (16 * (16 * (16 * (16 * 0 + hex_digit_value c0)
              + hex_digit_value c1) + hex_digit_value c2) + hex_digit_value c3)
              + hex_digit_value c4) + hex_digit_value c5) + hex_digit_value c6)
              + hex_digit_value c7 := by
      intro c0 c1 c2 c3 c4 c5 c6 c7
      rfl
    rw [hrange]
    simp only [List.map_cons, List.map_nil, Nat.reduceSub, Nat.reduceMul]
    rw [hfold, h0, h1, h2, h3, h4, h5, h6, h7]
    clear h0 h1 h2 h3 h4 h5 h6 h7 hfold hrange hget hlook
    norm_num at hn ⊢
    omega

set_option maxRecDepth 100000 in
theorem print_hex_digits_witness :
    (∃ s : List Char, print_hex 3735928559 = some (s.map FloatExplain.OutItem.ch) ∧
      s.length = 8 ∧ (∀ c ∈ s, c ∈ "0123456789ABCDEF".toList) ∧
      (∀ k : Nat, k < 8 → ∃ shifted,
        FloatExplain.shr32 3735928559 (4 * (7 - (k : Int))) = some shifted ∧
        shifted &&& 0xF < 16 ∧
        s[k]? = "0123456789ABCDEF".toList[shifted &&& 0xF]?) ∧
      hex_numeral_value s = 3735928559) ∧
    print_hex 42 = some (FloatExplain.text "0000002A") ∧
    print_hex 65535 = some (FloatExplain.text "0000FFFF") ∧
    print_hex 3735928559 = some (FloatExplain.text "DEADBEEF") :=
  ⟨print_hex_digits 3735928559 (by decide), by decide, by decide, by decide⟩

end PrintHex
